import Mathlib

/-!
# Verification of the `kpsn` repository's numeric and orchestration layers

This file gives a shallow embedding, in Lean 4, of the functions of the
`kpsn` repository that the frozen claims C1-C10 are about, and settles each
claim against the embedding.

Modelling conventions:

* JAX/numpy floating-point arrays are modelled over the real numbers `ℝ`
  (exact arithmetic); "within floating-point tolerance" statements become
  exact equalities over `ℝ`.
* Fallible Python code (raised exceptions) is modelled with `Except`.
* `None`-able arguments are modelled with `Option`.
* Machine-level index semantics of JAX (`.at[i].set`, clamped gathers,
  dropped out-of-bounds scatters, negative-index wrapping) are modelled
  explicitly where a claim depends on them.
-/

namespace KPSN

/-! ## `kpsn.util.sq_mahalanobis` (claim C7)

Embeds `sq_mahalanobis(x, y, cov=None, cov_inv=None)` from `src/kpsn/util.py`:
`diff = x - y`; assert that one of `cov`/`cov_inv` is given (an `AssertionError`
with the message below otherwise); if `cov_inv` is `None` it is computed as
`jnp.linalg.inv(cov)`; the result is `diff^T · cov_inv · diff`.
`jnp.linalg.inv` is the matrix inverse, i.e. `Matrix.inv` over `ℝ`. -/

noncomputable def sq_mahalanobis {m : ℕ} (x y : Fin m → ℝ)
    (cov cov_inv : Option (Matrix (Fin m) (Fin m) ℝ)) : Except String ℝ :=
  match cov, cov_inv with
  | none, none => .error "One of `cov` or `cov_inv` required."
  | some c, none => .ok (Matrix.dotProduct (x - y) (Matrix.mulVec c⁻¹ (x - y)))
  | _, some ci => .ok (Matrix.dotProduct (x - y) (Matrix.mulVec ci (x - y)))

/-! ## `kpsn.util.InverseWishart._variance` (claim C4)

`_single_variance(df, scale)` builds, for `dim = scale.shape[-1]`:
`rows = jnp.arange(dim)[:, None].repeat(3, axis=1)` (shape `(dim, 3)`),
`cols = jnp.arange(dim)[None, :].repeat(3, axis=0)` (shape `(3, dim)`),
and computes
`numer = (df-dim+1)*scale**2 + (df-dim-1)*diag[rows]*diag[cols]`,
`denom = (df-dim)*(df-dim-1)**2*(df-dim-3)`, returning `numer/denom`.
The literal `3` in `repeat` is in the source.  We embed two-dimensional
numpy arrays with their shapes and numpy's broadcasting rule (two axis
lengths are compatible iff they are equal or one of them is `1`;
incompatible shapes raise, which we model with `Option`). -/

structure NArr where
  rows : ℕ
  cols : ℕ
  val : ℕ → ℕ → ℝ

/-- Numpy broadcast of two axis lengths: equal, or one of them is `1`. -/
def bdim (a b : ℕ) : Option ℕ :=
  if a = b then some a else if a = 1 then some b else if b = 1 then some a else none

/-- Index into a possibly length-1 (broadcast) axis. -/
def bidx (len i : ℕ) : ℕ := if len = 1 then 0 else i

/-- Element-wise binary operation with numpy broadcasting; `none` on
incompatible shapes. -/
def bbinop (f : ℝ → ℝ → ℝ) (A B : NArr) : Option NArr :=
  match bdim A.rows B.rows, bdim A.cols B.cols with
  | some r, some c =>
    some ⟨r, c, fun i j =>
      f (A.val (bidx A.rows i) (bidx A.cols j)) (B.val (bidx B.rows i) (bidx B.cols j))⟩
  | _, _ => none

/-- Scalar multiple of every entry (shape preserved). -/
def NArr.smul (c : ℝ) (A : NArr) : NArr := ⟨A.rows, A.cols, fun i j => c * A.val i j⟩

/-- Element-wise square (shape preserved), `scale**2`. -/
def NArr.sq (A : NArr) : NArr := ⟨A.rows, A.cols, fun i j => (A.val i j) ^ 2⟩

/-- Divide every entry by a scalar (shape preserved). -/
noncomputable def NArr.divs (A : NArr) (c : ℝ) : NArr :=
  ⟨A.rows, A.cols, fun i j => A.val i j / c⟩

/-- `InverseWishart._variance`'s helper `_single_variance(df, scale)` for a
scalar `df` and a square `scale` array (`dim = scale.cols`).  `diag[rows]`
has shape `(dim, 3)` with entry `(a, b) = diag[a]`; `diag[cols]` has shape
`(3, dim)` with entry `(a, b) = diag[b]`; their product, the addition with
`(df-dim+1)*scale**2`, and the division by the scalar `denom` follow numpy
broadcasting. -/
noncomputable def single_variance (df : ℝ) (scale : NArr) : Option NArr :=
  let dim := scale.cols
  let diag : ℕ → ℝ := fun a => scale.val a a
  let diagRows : NArr := ⟨dim, 3, fun a _ => diag a⟩
  let diagCols : NArr := ⟨3, dim, fun _ b => diag b⟩
  let dfm : ℝ := df - (dim : ℝ)
  match bbinop (· * ·) diagRows diagCols with
  | none => none
  | some prods =>
    match bbinop (· + ·) (NArr.smul (dfm + 1) (NArr.sq scale)) (NArr.smul (dfm - 1) prods) with
    | none => none
    | some numer => some (numer.divs (dfm * (dfm - 1) ^ 2 * (dfm - 3)))

/-! ## `kpsn.io.features.pcs._calibrate` subsampling (claim C5)

Whenever `config["max_pts"] is not None`, `pcs._calibrate` runs
`jr.choice(key, n_rows, (max_pts,), replace=False)` unconditionally —
there is no check that the dataset is larger than `max_pts`.
`jax.random.choice` with `replace=False` raises a `ValueError` when asked
for more draws than the population holds; otherwise it returns `max_pts`
distinct row indices (a PRNG-seeded draw; which rows are drawn does not
matter to the claim, only how many, so the draw itself is left abstract as
its index count). -/

def jr_choice_noreplace (n_rows n_draws : ℕ) : Except String (List ℕ) :=
  if n_rows < n_draws then
    .error "Cannot take a larger sample than population when replace=False"
  else
    .ok (List.range n_draws)

/-- Row-selection behaviour of `pcs._calibrate`: with `max_pts = None` all
rows are kept; with `max_pts = some m` the data is always subsampled via
`jr_choice_noreplace`.  Returns the number of rows the PCA fit receives. -/
def pcs_calibrate_rows (n_rows : ℕ) (max_pts : Option ℕ) : Except String ℕ :=
  match max_pts with
  | none => .ok n_rows
  | some m =>
    match jr_choice_noreplace n_rows m with
    | .error e => .error e
    | .ok sel => .ok sel.length

/-! ## `kpsn.viz.styles` (claims C8 and C10)

`set_style(style)` runs three attempts: `plt.style.use(style)` followed by
`color_sets[style]` (any exception falls through); then
`plt.style.use(<resource dir>/f"{style}.mplstyle")` followed by
`color_sets[style]`; then it logs the warning below, sets
`style = "default"`, runs `plt.style.use("default")` (always a valid
built-in style) and `color_sets["default"]` — a `KeyError` here would
propagate.  `init_nb(plot_dir, style, ...)` calls `set_style(style)`
and then evaluates `clr = color_sets[style]` with the *originally
requested* name.

The environment (the built-in matplotlib style names, the style-sheet
files present in the resource directory, and the repository's
`color_sets` registry, the latter two living outside the given sources)
is modelled from the spec as finite string-keyed collections; palettes
are abstracted to tags. -/

structure StyleEnv where
  builtin : List String
  sheets : List String
  color_sets : List (String × ℕ)

/-- The exact warning string from the source.  Note it is **not** an
f-string in the source (`logging.warn("... `{style}` ...")` with no `f`
front), so the braces are literal text and the message is the same
for every requested style. -/
def warn_msg : String := "[init_nb] No matplotlib style `{style}` found, resorting to `default`."

structure StyleOutcome where
  used : String
  active : ℕ
  warnings : List String
deriving DecidableEq

def set_style (env : StyleEnv) (style : String) : Except String StyleOutcome :=
  match (if env.builtin.contains style then env.color_sets.lookup style else none) with
  | some c => .ok ⟨style, c, []⟩
  | none =>
    match (if env.sheets.contains style then env.color_sets.lookup style else none) with
    | some c => .ok ⟨style, c, []⟩
    | none =>
      match env.color_sets.lookup "default" with
      | some c => .ok ⟨"default", c, [warn_msg]⟩
      | none => .error "KeyError: default"

def init_nb (env : StyleEnv) (style : String) : Except String (StyleOutcome × ℕ) :=
  match set_style env style with
  | .error e => .error e
  | .ok st =>
    match env.color_sets.lookup style with
    | some c => .ok (st, c)
    | none => .error ("KeyError: " ++ style)

end KPSN

namespace KPSN

/-! ## `kpsn.logging.ArrayTrace` (claims C6 and C9)

`ArrayTrace(n_steps)` starts with `self._tree = None`; `record(reports,
step)` initializes on first call (zero-filled buffers of shape
`(n_steps, *leaf_shape)` per leaf) and then runs a
`jax.tree_util.tree_map_with_path` over the stored tree and the report,
writing `trace.at[step].set(report_leaf)` when
`jnp.array(report_leaf).shape == trace[step].shape` and raising a
`ValueError` interpolating the structural path, the offered shape and the
expected shape otherwise.

A pytree is represented by its flattened form: the list of
`(structural path, leaf)` pairs in traversal order (this is exactly how
`tree_map_with_path` consumes it; two pytrees have equal structure iff
their path lists agree).  A leaf array is its shape together with its
(flattened) entries; a per-leaf trace buffer keeps the per-step leaf shape
and one entry function per slot.

JAX index semantics used by `trace.at[step].set(...)`: a negative index is
wrapped by adding the axis length; an index that is still out of bounds
makes the scatter a silent no-op ("drop" mode).  The gather `trace[step]`
(used only for its `.shape`) clamps and never raises, so the shape
comparison sees the per-step leaf shape for every integer `step`. -/

structure LeafArr where
  shape : List ℕ
  val : ℕ → ℝ

structure TraceBuf where
  leafShape : List ℕ
  slots : ℕ → ℕ → ℝ

structure ArrayTrace where
  n_steps : ℕ
  tree : Option (List (List String × TraceBuf))

/-- `ArrayTrace.initialize`: per-leaf zero-filled buffers shaped by the
first report. -/
def initBufs (report : List (List String × LeafArr)) :
    List (List String × TraceBuf) :=
  report.map (fun pl => (pl.1, ⟨pl.2.shape, fun _ _ => 0⟩))

/-- JAX negative-index wrapping for an axis of length `n`. -/
def jwrap (n : ℕ) (step : ℤ) : ℤ := if step < 0 then step + n else step

/-- `buf.at[step].set(v)` on the leading axis of length `n`: wrap negative
indices, drop out-of-bounds writes, otherwise overwrite slot `step`. -/
def setSlot (n : ℕ) (b : TraceBuf) (step : ℤ) (v : ℕ → ℝ) : TraceBuf :=
  let s := jwrap n step
  if 0 ≤ s ∧ s < (n : ℤ) then
    ⟨b.leafShape, fun t i => if (t : ℤ) = s then v i else b.slots t i⟩
  else b

/-- The error raised by `record`: the `ValueError` whose message
interpolates the structural path, the offered leaf shape and the expected
(initialized) shape; or the `tree_map` structure mismatch. -/
inductive RecordError where
  | shapeMismatch (path : List String) (offered expected : List ℕ)
  | treeMismatch
deriving DecidableEq

/-- The `tree_map_with_path` of `record` over the flattened trees: at each
leaf, compare the offered shape with the buffer's per-step shape; write on
match, raise on mismatch (first mismatching leaf in traversal order
wins, as in the eager traversal of the source). -/
def recordLeaves (n : ℕ) (step : ℤ) :
    List (List String × TraceBuf) → List (List String × LeafArr) →
    Except RecordError (List (List String × TraceBuf))
  | [], [] => .ok []
  | (p, b) :: bs, (q, l) :: ls =>
    if p = q then
      if l.shape = b.leafShape then
        match recordLeaves n step bs ls with
        | .ok rest => .ok ((p, setSlot n b step l.val) :: rest)
        | .error e => .error e
      else .error (.shapeMismatch p l.shape b.leafShape)
    else .error .treeMismatch
  | _, _ => .error .treeMismatch

/-- `ArrayTrace.record(reports, step)`. -/
def record (t : ArrayTrace) (report : List (List String × LeafArr)) (step : ℤ) :
    Except RecordError ArrayTrace :=
  let tr := match t.tree with
    | none => initBufs report
    | some tr => tr
  match recordLeaves t.n_steps step tr report with
  | .ok tr2 => .ok ⟨t.n_steps, some tr2⟩
  | .error e => .error e

/-- Structure-and-shape compatibility of a report with a stored tree:
paths agree pairwise and every leaf shape equals the buffer shape. -/
def compat : List (List String × TraceBuf) → List (List String × LeafArr) → Bool
  | [], [] => true
  | (p, b) :: bs, (q, l) :: ls =>
    if p = q ∧ l.shape = b.leafShape then compat bs ls else false
  | _, _ => false

/-- The successful update: every buffer gets slot `step` overwritten by
the corresponding report leaf. -/
def applyRec (n : ℕ) (step : ℤ) (tr : List (List String × TraceBuf))
    (r : List (List String × LeafArr)) : List (List String × TraceBuf) :=
  List.zipWith (fun pb ql => (pb.1, setSlot n pb.2 step ql.2.val)) tr r
/-- Default entry for `List.getD` over stored trees. -/
def dfltBuf : List String × TraceBuf := ([], ⟨[], fun _ _ => 0⟩)

/-- Concrete objects for the C6 witness: a 3-step trace with one leaf of
shape `[2]`, two compatible reports, a mis-shaped report, and the trace
after the first record. -/
def c6_buf : TraceBuf := ⟨[2], fun _ _ => 0⟩

def c6_tr : List (List String × TraceBuf) := [(["a"], c6_buf)]

def c6_t0 : ArrayTrace := ⟨3, some c6_tr⟩

def c6_r1 : List (List String × LeafArr) := [(["a"], ⟨[2], fun _ => 1⟩)]

def c6_r2 : List (List String × LeafArr) := [(["a"], ⟨[2], fun _ => 2⟩)]

def c6_bad : List (List String × LeafArr) := [(["a"], ⟨[3], fun _ => 1⟩)]

def c6_t1 : ArrayTrace := ⟨3, some [(["a"], setSlot 3 c6_buf 0 (fun _ => 1))]⟩

/-- Concrete objects for the C9 witness: same layout, out-of-range step 5. -/
def c9_tr : List (List String × TraceBuf) := [(["b"], ⟨[2], fun _ _ => 0⟩)]

def c9_t0 : ArrayTrace := ⟨3, some c9_tr⟩

def c9_r : List (List String × LeafArr) := [(["b"], ⟨[2], fun _ => 4⟩)]

/-! ## `kpsn.fitting.scans.setup_scan_config` (claim C3)

The relevant part of `setup_scan_config(project, name, scan_params,
scan_config_overrides, model_name_fmt, model_overrides)`:

* `scan_params = flatten(scan_params)`; `n_models = len(scan_params[keys[0]])`
  (an `IndexError` on an empty grid);
* `config["models"] = {fmt(scan_name=name, i=i): {p: vals[i] for p, vals in
  scan_params.items()} for i in range(n_models)}` with the default template
  `"{scan_name}_{i}"`;
* `model_config = recursive_update(load_model_config(base), deepen(model_overrides))`;
  raise `ValueError` unless `model_config["fit"]["type"] == "standard"`;
* `model_config["fit"] = {"type": "split", **recursive_update(
  fit_types["split"].defaults, deepen(scan_config_overrides)),
  "em": old fit section}`; configs are then persisted (filesystem effects
  are outside the claim).

Configuration values are YAML scalars, embedded as `Val`.  The helpers
`flatten`/`deepen`/`recursive_update` live in `kpsn.config`, which is not
among the given sources.  Modelled from the spec: configurations are
handled in their *flattened* view (dotted-path keys; the spec describes
overrides as "flattened config-path → value" mappings and `flatten` as the
nested↔flat converter), where overlaying `deepen(overrides)` by
`recursive_update` sets exactly the overridden paths — leftmost-wins
association lists, so `recursive_update` is list append with the update in
front.  `fit_types["split"].defaults` (from `kpsn.fitting.methods`, also
not given) is an arbitrary flat config parameter. -/

inductive Val where
  | vs : String → Val
  | vi : ℤ → Val
  | vb : Bool → Val
deriving DecidableEq

/-- Flattened-view deep merge: the update wins wherever it sets a path
(leftmost-wins association-list semantics). -/
def recursive_update_flat (base upd : List (String × Val)) : List (String × Val) :=
  upd ++ base

/-- The default model-name template `"{scan_name}_{i}"`. -/
def model_name_default (scan_name : String) (i : ℕ) : String :=
  scan_name ++ "_" ++ toString i

/-- The manifest's `models` mapping: `n_models = len` of the *first*
declared parameter's value list; model `i` is named by the default
template and carries the flattened override `{p: vals[i] for each p}`. -/
def scan_models (name : String) (scan_params : List (String × List Val)) :
    List (String × List (String × Val)) :=
  match scan_params with
  | [] => []
  | (_, vals0) :: _ =>
    (List.range vals0.length).map (fun i =>
      (model_name_default name i,
        scan_params.map (fun pv => (pv.1, pv.2.getD i (Val.vi 0)))))

/-- The derived base model config: `model_overrides` overlaid on the base,
and the fit section replaced by a `"split"`-type section carrying the
scan-override-merged split defaults and the original fit section nested
under `em` (flat keys `fit.em.*`). -/
def derived_split_config (base_model_config scan_config_overrides model_overrides
    split_defaults : List (String × Val)) : List (String × Val) :=
  let model_config := recursive_update_flat base_model_config model_overrides
  let scan_config := recursive_update_flat split_defaults scan_config_overrides
  let old_fit := model_config.filter (fun kv => kv.1.startsWith "fit.")
  let other := model_config.filter (fun kv => ¬ kv.1.startsWith "fit.")
  other ++ (("fit.type", Val.vs "split") ::
    (scan_config.map (fun kv => ("fit." ++ kv.1, kv.2)) ++
      old_fit.map (fun kv => ("fit.em." ++ kv.1.drop 4, kv.2))))

/-- `setup_scan_config` (pure part): returns the manifest's `models`
mapping and the derived split-fit base model config, or the raised
error. -/
def setup_scan_config (base_model_config : List (String × Val)) (name : String)
    (scan_params : List (String × List Val))
    (scan_config_overrides model_overrides : List (String × Val))
    (split_defaults : List (String × Val)) :
    Except String (List (String × List (String × Val)) × List (String × Val)) :=
  match scan_params with
  | [] => .error "IndexError: scan_params is empty"
  | _ :: _ =>
    match (recursive_update_flat base_model_config model_overrides).lookup "fit.type" with
    | none => .error "KeyError: fit.type"
    | some v =>
      if v = Val.vs "standard" then
        .ok (scan_models name scan_params,
          derived_split_config base_model_config scan_config_overrides
            model_overrides split_defaults)
      else .error "Scan only supports standard fit type for base model."

/-! ## `kpsn.io.features.locked_pts` (claim C2)

`locked_pts.reduce_array(arr, config)` flattens each frame
(`arr.reshape((n_frames, -1))`) and keeps the flattened coordinates whose
index is not in `calibration_data["reduce_ixs"]`
(`flat_data[..., ~isin(arange(D), reduce_ixs)]`), in ascending index order.
`locked_pts.inflate_array(arr, config)` re-inserts a zero at each dropped
index in ascending order (`for reduced_ix in sorted(reduce_ixs):
arr = jnp.insert(arr, reduced_ix, 0, axis=-1)`) and reshapes to
`(n_frames, n_kpts, -1)`.  `locked_pts._calibrate` flattens the dataset
(`dataset.as_features()`, an index-preserving reshape living outside the
given sources) and takes `reduce_ixs = where(std(axis=0) < 1e-5)`, with
numpy's population standard deviation.

Frames are embedded in their flattened form (`List ℝ` per frame); the
final `(n_kpts, -1)` reshape is coordinate-preserving and the claim is
stated per flattened coordinate. -/

namespace locked_pts

/-- One flattened frame through `reduce_array`: keep coordinates whose
index is not a `reduce_ixs` member, in order (boolean-mask selection). -/
def reduce_frame (r : List ℝ) (ixs : List ℕ) : List ℝ :=
  ((List.range r.length).filter (fun i => ! decide (i ∈ ixs))).map (fun i => r.getD i 0)

def reduce_array (x : List (List ℝ)) (ixs : List ℕ) : List (List ℝ) :=
  x.map (fun r => reduce_frame r ixs)

/-- `jnp.insert(arr, ix, 0, axis=-1)` at each dropped index, in the
ascending order produced by `sorted(...)`. -/
def inflate_frame (y : List ℝ) (ixs : List ℕ) : List ℝ :=
  (ixs.mergeSort).foldl (fun a ix => a.insertIdx ix 0) y

def inflate_array (y : List (List ℝ)) (ixs : List ℕ) : List (List ℝ) :=
  y.map (fun r => inflate_frame r ixs)

/-- Column mean across frames (numpy `mean(axis=0)`). -/
noncomputable def colMean (x : List (List ℝ)) (j : ℕ) : ℝ :=
  (x.map (fun r => r.getD j 0)).sum / (x.length : ℝ)

/-- Column population standard deviation across frames (numpy
`std(axis=0)`, `ddof = 0`). -/
noncomputable def colStd (x : List (List ℝ)) (j : ℕ) : ℝ :=
  Real.sqrt ((x.map (fun r => (r.getD j 0 - colMean x j) ^ 2)).sum / (x.length : ℝ))

/-- `locked_pts._calibrate`: the dropped indices are exactly the flattened
axes with standard deviation below `1e-5`, in ascending order
(`jnp.where` on the flattened-axis range `D`). -/
noncomputable def calibrate (x : List (List ℝ)) (D : ℕ) : List ℕ :=
  (List.range D).filter (fun j => decide (colStd x j < 1e-5))

/-- The per-coordinate description the claim states: the original value at
coordinates not in `reduce_ixs`, zero at dropped coordinates. -/
def maskFrame (r : List ℝ) (ixs : List ℕ) : List ℝ :=
  (List.range r.length).map (fun i => if i ∈ ixs then 0 else r.getD i 0)

end locked_pts

/-! ## `kpsn.util.expand_tril_cholesky` / `extract_tril_cholesky` (claim C1)

`expand_tril_cholesky(cholesky, n)` reads the first `n` entries of the
flat vector as log-scaled diagonal values and the remaining `n(n-1)/2`
entries as the strict lower triangle in the row-major order of
`jnp.tril_indices(n, k=-1)` — i.e. entry `(i, j)` (with `j < i`) sits at
flat offset `triangle i + j` where `triangle i = 0 + 1 + ... + (i-1)` —
builds the lower-triangular `L` with `exp` of the diagonal entries, and
returns `L Lᵀ`.  `extract_tril_cholesky(A)` Cholesky-factorizes `A`
(`jnp.linalg.cholesky`, embedded as the standard Cholesky–Crout recursion
`chol`) and serializes `log(diag(L))` followed by the strict lower
triangle in the same order.  Everything is over exact real arithmetic, so
the "within floating-point tolerance" part of the claim becomes exact
equality. -/

/-- `triangle n = n(n-1)/2`, the number of strict-lower-triangular entries
of an `n×n` matrix. -/
def triangle : ℕ → ℕ
  | 0 => 0
  | n + 1 => triangle n + n

/-- The pairs `(i, j)` with `j < i < n` in the row-major order of
`jnp.tril_indices(n, k=-1)`. -/
def trilPairs : ℕ → List (ℕ × ℕ)
  | 0 => []
  | n + 1 => trilPairs n ++ (List.range n).map (fun j => (n, j))

/-- Total (out-of-range = 0) read access to a square matrix, for
serialization indexed by plain naturals. -/
noncomputable def Aget {N : ℕ} (A : Matrix (Fin N) (Fin N) ℝ) (i j : ℕ) : ℝ :=
  if h : i < N ∧ j < N then A ⟨i, h.1⟩ ⟨j, h.2⟩ else 0

/-- The Cholesky factor of `A`, by the standard Cholesky–Crout recursion:
zero above the diagonal,
`sqrt (A i i - Σ_{k<i} L i k ^ 2)` on the diagonal, and
`(A i j - Σ_{k<j} L i k * L j k) / L j j` below it.  This is the function
`jnp.linalg.cholesky` computes (in floating point). -/
noncomputable def chol {N : ℕ} (A : Matrix (Fin N) (Fin N) ℝ) (i j : Fin N) : ℝ :=
  if _hji : (j : ℕ) < (i : ℕ) then
    (A i j - ∑ k : Fin N, if _h : (k : ℕ) < (j : ℕ) then chol A i k * chol A j k else 0)
      / chol A j j
  else if _hij : (i : ℕ) = (j : ℕ) then
    Real.sqrt (A i i - ∑ k : Fin N, if _h : (k : ℕ) < (i : ℕ) then (chol A i k) ^ 2 else 0)
  else 0
termination_by ((j : ℕ), (i : ℕ))

/-- The lower-triangular matrix `expand_tril_cholesky` builds from the
flat vector: `exp` of the first `n` entries on the diagonal, the remaining
entries in the strict lower triangle (row-major), zero above. -/
noncomputable def L_of (v : List ℝ) (n : ℕ) : Matrix (Fin n) (Fin n) ℝ :=
  Matrix.of fun i j =>
    if (i : ℕ) = (j : ℕ) then Real.exp (v.getD i 0)
    else if (j : ℕ) < (i : ℕ) then v.getD (n + (triangle i + j)) 0
    else 0

noncomputable def expand_tril_cholesky (v : List ℝ) (n : ℕ) :
    Matrix (Fin n) (Fin n) ℝ :=
  L_of v n * (L_of v n).transpose

noncomputable def extract_tril_cholesky {n : ℕ} (A : Matrix (Fin n) (Fin n) ℝ) :
    List ℝ :=
  (List.range n).map (fun i => Real.log (Aget (chol A) i i)) ++
    (trilPairs n).map (fun p => Aget (chol A) p.1 p.2)


theorem compat_cons {p q : List String} {b : TraceBuf} {l : LeafArr}
    {bs : List (List String × TraceBuf)} {ls : List (List String × LeafArr)} :
    compat ((p, b) :: bs) ((q, l) :: ls) = true ↔
      p = q ∧ l.shape = b.leafShape ∧ compat bs ls = true := by
  rw [compat]
  by_cases hc : p = q ∧ l.shape = b.leafShape
  · simp [hc.1, hc.2]
  · rw [if_neg hc]
    simp only [Bool.false_eq_true, false_iff]
    intro hcon
    exact hc ⟨hcon.1, hcon.2.1⟩

theorem compat_length (tr : List (List String × TraceBuf)) :
    ∀ r, compat tr r = true → tr.length = r.length := by
  induction tr with
  | nil =>
    intro r h
    cases r with
    | nil => rfl
    | cons q ls => simp [compat] at h
  | cons pb bs ih =>
    intro r h
    cases r with
    | nil => obtain ⟨p, b⟩ := pb; simp [compat] at h
    | cons ql ls =>
      obtain ⟨p, b⟩ := pb
      obtain ⟨q, l⟩ := ql
      obtain ⟨_, _, hrest⟩ := compat_cons.mp h
      simpa using ih ls hrest

theorem recordLeaves_ok_of_compat (n : ℕ) (step : ℤ)
    (tr : List (List String × TraceBuf)) :
    ∀ r, compat tr r = true →
      recordLeaves n step tr r = .ok (applyRec n step tr r) := by
  induction tr with
  | nil =>
    intro r h
    cases r with
    | nil => rfl
    | cons q ls => simp [compat] at h
  | cons pb bs ih =>
    intro r h
    cases r with
    | nil => obtain ⟨p, b⟩ := pb; simp [compat] at h
    | cons ql ls =>
      obtain ⟨p, b⟩ := pb
      obtain ⟨q, l⟩ := ql
      obtain ⟨hpq, hsh, hrest⟩ := compat_cons.mp h
      simp [recordLeaves, hpq, hsh, ih ls hrest, applyRec]

theorem recordLeaves_ok_inv (n : ℕ) (step : ℤ)
    (tr : List (List String × TraceBuf)) :
    ∀ r out, recordLeaves n step tr r = .ok out →
      compat tr r = true ∧ out = applyRec n step tr r := by
  induction tr with
  | nil =>
    intro r out h
    cases r with
    | nil =>
      simp only [recordLeaves] at h
      cases h
      exact ⟨rfl, rfl⟩
    | cons q ls => simp [recordLeaves] at h
  | cons pb bs ih =>
    intro r out h
    cases r with
    | nil => obtain ⟨p, b⟩ := pb; simp [recordLeaves] at h
    | cons ql ls =>
      obtain ⟨p, b⟩ := pb
      obtain ⟨q, l⟩ := ql
      by_cases hpq : p = q
      · by_cases hsh : l.shape = b.leafShape
        · simp only [recordLeaves, if_pos hpq, if_pos hsh] at h
          cases hrec : recordLeaves n step bs ls with
          | ok rest =>
            rw [hrec] at h
            cases h
            obtain ⟨hc, hout⟩ := ih ls rest hrec
            exact ⟨compat_cons.mpr ⟨hpq, hsh, hc⟩, by simp [applyRec, hout, applyRec]⟩
          | error e => rw [hrec] at h; cases h
        · simp [recordLeaves, hpq, hsh] at h
      · simp [recordLeaves, hpq] at h

/-- Overwriting slot `step` twice keeps only the second write. -/
theorem setSlot_setSlot (n : ℕ) (b : TraceBuf) (step : ℤ) (v1 v2 : ℕ → ℝ) :
    setSlot n (setSlot n b step v1) step v2 = setSlot n b step v2 := by
  unfold setSlot
  by_cases h : 0 ≤ jwrap n step ∧ jwrap n step < (n : ℤ)
  · simp only [if_pos h]
    congr 1
    funext t i
    by_cases ht : (t : ℤ) = jwrap n step <;> simp [ht]
  · simp [if_neg h]

theorem setSlot_leafShape (n : ℕ) (b : TraceBuf) (step : ℤ) (v : ℕ → ℝ) :
    (setSlot n b step v).leafShape = b.leafShape := by
  unfold setSlot
  by_cases h : 0 ≤ jwrap n step ∧ jwrap n step < (n : ℤ) <;> simp [h]

theorem recordLeaves_after_applyRec (n : ℕ) (step : ℤ)
    (tr : List (List String × TraceBuf)) :
    ∀ r1, compat tr r1 = true → ∀ r2,
      recordLeaves n step (applyRec n step tr r1) r2 = recordLeaves n step tr r2 := by
  induction tr with
  | nil =>
    intro r1 h r2
    cases r1 with
    | nil => simp [applyRec]
    | cons q ls => simp [compat] at h
  | cons pb bs ih =>
    intro r1 h r2
    cases r1 with
    | nil => obtain ⟨p, b⟩ := pb; simp [compat] at h
    | cons ql ls =>
      obtain ⟨p, b⟩ := pb
      obtain ⟨q, l⟩ := ql
      obtain ⟨_hpq, _hsh, hrest⟩ := compat_cons.mp h
      cases r2 with
      | nil => simp [applyRec, recordLeaves]
      | cons ql2 ls2 =>
        obtain ⟨q2, l2⟩ := ql2
        simp only [applyRec, List.zipWith_cons_cons, recordLeaves,
          setSlot_leafShape]
        by_cases hpq2 : p = q2
        · by_cases hsh2 : l2.shape = b.leafShape
          · simp only [if_pos hpq2, if_pos hsh2]
            have hb := ih ls hrest ls2
            simp only [applyRec] at hb
            rw [hb, setSlot_setSlot]
          · simp [hpq2, hsh2]
        · simp [hpq2]

theorem mem_keys_of_lookup {β : Type} {k : List String} {v : β} :
    ∀ {l : List (List String × β)}, List.lookup k l = some v →
      k ∈ l.map Prod.fst := by
  intro l
  induction l with
  | nil =>
    intro h
    rw [List.lookup] at h
    exact Option.noConfusion h
  | cons a l ih =>
    intro h
    by_cases hk : k = a.1
    · simp only [List.map_cons]
      rw [hk]
      exact List.mem_cons_self _ _
    · have hbeq : (k == a.1) = false := beq_eq_false_iff_ne.mpr hk
      rw [List.lookup, hbeq] at h
      simp only [List.map_cons, List.mem_cons]
      exact Or.inr (ih h)

theorem lookup_cons_of_ne {β : Type} {k a : List String} (v : β)
    (l : List (List String × β)) (h : ¬ k = a) :
    List.lookup k ((a, v) :: l) = List.lookup k l := by
  have hbeq : (k == a) = false := beq_eq_false_iff_ne.mpr h
  rw [List.lookup, hbeq]

theorem recordLeaves_mismatch (n : ℕ) (step : ℤ)
    (tr : List (List String × TraceBuf)) :
    ∀ r, tr.map Prod.fst = r.map Prod.fst → (r.map Prod.fst).Nodup →
      compat tr r = false →
      ∃ p s e, recordLeaves n step tr r = .error (.shapeMismatch p s e) ∧ s ≠ e ∧
        (r.map (fun ql => (ql.1, ql.2.shape))).lookup p = some s ∧
        (tr.map (fun pb => (pb.1, pb.2.leafShape))).lookup p = some e := by
  induction tr with
  | nil =>
    intro r hpaths _hnodup hmis
    cases r with
    | nil => rw [compat] at hmis; exact Bool.noConfusion hmis
    | cons ql ls =>
      simp only [List.map_nil, List.map_cons] at hpaths
      exact List.noConfusion hpaths
  | cons pb bs ih =>
    intro r hpaths hnodup hmis
    cases r with
    | nil =>
      simp only [List.map_nil, List.map_cons] at hpaths
      exact List.noConfusion hpaths
    | cons ql ls =>
      obtain ⟨p, b⟩ := pb
      obtain ⟨q, l⟩ := ql
      simp only [List.map_cons, List.cons.injEq] at hpaths
      obtain ⟨hpq, hpaths'⟩ := hpaths
      subst hpq
      simp only [List.map_cons, List.nodup_cons] at hnodup
      obtain ⟨hqnot, hnodup'⟩ := hnodup
      by_cases hsh : l.shape = b.leafShape
      · have hmis' : compat bs ls = false := by
          rw [compat, if_pos ⟨rfl, hsh⟩] at hmis
          exact hmis
        obtain ⟨p', s', e', hrec', hne', hr', htr'⟩ := ih ls hpaths' hnodup' hmis'
        have hmm : (ls.map fun ql => (ql.1, ql.2.shape)).map Prod.fst
            = ls.map Prod.fst := by
          rw [List.map_map]
          rfl
        have hp'mem : p' ∈ ls.map Prod.fst := hmm ▸ mem_keys_of_lookup hr'
        have hp'q : ¬ p' = p := fun hcontra => hqnot (hcontra ▸ hp'mem)
        refine ⟨p', s', e', ?_, hne', ?_, ?_⟩
        · rw [recordLeaves, if_pos rfl, if_pos hsh, hrec']
        · rw [List.map_cons, lookup_cons_of_ne _ _ hp'q]
          exact hr'
        · rw [List.map_cons, lookup_cons_of_ne _ _ hp'q]
          exact htr'
      · refine ⟨p, l.shape, b.leafShape, ?_, hsh, ?_, ?_⟩
        · rw [recordLeaves, if_pos rfl, if_neg hsh]
        · rw [List.map_cons, List.lookup, beq_self_eq_true]
        · rw [List.map_cons, List.lookup, beq_self_eq_true]

/-- C6: on an initialized trace, recording twice at the same in-range step
leaves the trace as if only the second call happened; and recording a
report with a leaf whose shape differs from the initialized shape fails
with an error naming that leaf's structural path, the offered shape and
the expected shape (`compat tr r = false` states that some leaf of the
structurally matching report `r` has a mismatched shape). -/
theorem arraytrace_record_overwrite_and_shape_error :
    (∀ (t : ArrayTrace) (tr : List (List String × TraceBuf))
        (r1 r2 : List (List String × LeafArr)) (step : ℤ) (t1 : ArrayTrace),
      t.tree = some tr → 0 ≤ step → step < (t.n_steps : ℤ) →
      record t r1 step = .ok t1 →
      record t1 r2 step = record t r2 step) ∧
    (∀ (t : ArrayTrace) (tr : List (List String × TraceBuf))
        (r : List (List String × LeafArr)) (step : ℤ),
      t.tree = some tr →
      tr.map Prod.fst = r.map Prod.fst →
      (r.map Prod.fst).Nodup →
      compat tr r = false →
      ∃ p s e, record t r step = .error (.shapeMismatch p s e) ∧ s ≠ e ∧
        (r.map (fun ql => (ql.1, ql.2.shape))).lookup p = some s ∧
        (tr.map (fun pb => (pb.1, pb.2.leafShape))).lookup p = some e) := by
  constructor
  · intro t tr r1 r2 step t1 htree _h0 _hlt h1
    unfold record at h1 ⊢
    rw [htree] at h1
    simp only at h1
    cases hrec : recordLeaves t.n_steps step tr r1 with
    | ok out =>
      rw [hrec] at h1
      cases h1
      obtain ⟨hc, hout⟩ := recordLeaves_ok_inv _ _ _ _ _ hrec
      simp only [htree, hout]
      rw [recordLeaves_after_applyRec _ _ _ _ hc r2]
    | error e => rw [hrec] at h1; cases h1
  · intro t tr r step htree hpaths hnodup hmis
    obtain ⟨p, s, e, hrec, hne, hr, htr⟩ :=
      recordLeaves_mismatch t.n_steps step tr r hpaths hnodup hmis
    refine ⟨p, s, e, ?_, hne, hr, htr⟩
    unfold record
    rw [htree]
    simp only
    rw [hrec]

/-- Out-of-bounds scatter (after negative wrapping) is a no-op. -/
theorem setSlot_oob (n : ℕ) (b : TraceBuf) (step : ℤ) (v : ℕ → ℝ)
    (h : (n : ℤ) ≤ step ∨ step + (n : ℤ) < 0) :
    setSlot n b step v = b := by
  unfold setSlot
  rw [if_neg]
  intro hin
  unfold jwrap at hin
  rcases h with h | h
  · by_cases hneg : step < 0
    · omega
    · rw [if_neg hneg] at hin
      omega
  · by_cases hneg : step < 0
    · rw [if_pos hneg] at hin
      omega
    · omega

theorem applyRec_oob (n : ℕ) (step : ℤ)
    (h : (n : ℤ) ≤ step ∨ step + (n : ℤ) < 0) :
    ∀ (tr : List (List String × TraceBuf)) (r : List (List String × LeafArr)),
      applyRec n step tr r = List.zipWith (fun pb _ => pb) tr r := by
  intro tr
  induction tr with
  | nil => intro r; cases r <;> rfl
  | cons pb bs ih =>
    intro r
    cases r with
    | nil => rfl
    | cons ql ls =>
      simp only [applyRec, List.zipWith_cons_cons] at ih ⊢
      rw [setSlot_oob _ _ _ _ h, ih ls]

theorem zipWith_keep_left {α β : Type} :
    ∀ (l1 : List α) (l2 : List β), l1.length = l2.length →
      List.zipWith (fun a _ => a) l1 l2 = l1 := by
  intro l1
  induction l1 with
  | nil => intro l2 _; rfl
  | cons a l ih =>
    intro l2 hlen
    cases l2 with
    | nil => exact absurd hlen (by simp)
    | cons b l2 =>
      simp only [List.zipWith_cons_cons]
      rw [ih l2 (by simpa using hlen)]

theorem applyRec_shapes (n : ℕ) (step : ℤ) :
    ∀ (tr : List (List String × TraceBuf)) (r : List (List String × LeafArr)),
      compat tr r = true →
      (applyRec n step tr r).map (fun pb => (pb.1, pb.2.leafShape))
        = tr.map (fun pb => (pb.1, pb.2.leafShape)) := by
  intro tr
  induction tr with
  | nil => intro r _; cases r <;> rfl
  | cons pb bs ih =>
    intro r h
    cases r with
    | nil => obtain ⟨p, b⟩ := pb; exact Bool.noConfusion h
    | cons ql ls =>
      obtain ⟨p, b⟩ := pb
      obtain ⟨q, l⟩ := ql
      obtain ⟨_, _, hrest⟩ := compat_cons.mp h
      simp only [applyRec, List.zipWith_cons_cons, List.map_cons, setSlot_leafShape]
      have hb := ih ls hrest
      simp only [applyRec] at hb
      rw [hb]


theorem applyRec_slots_untouched (n : ℕ) (step : ℤ) :
    ∀ (tr : List (List String × TraceBuf)) (r : List (List String × LeafArr)),
      compat tr r = true → ∀ (k u : ℕ), (u : ℤ) ≠ jwrap n step →
      ((applyRec n step tr r).getD k dfltBuf).2.slots u = (tr.getD k dfltBuf).2.slots u := by
  intro tr
  induction tr with
  | nil => intro r h k u _; cases r <;> rfl
  | cons pb bs ih =>
    intro r h k u hu
    cases r with
    | nil => obtain ⟨p, b⟩ := pb; exact Bool.noConfusion h
    | cons ql ls =>
      obtain ⟨p, b⟩ := pb
      obtain ⟨q, l⟩ := ql
      obtain ⟨_, _, hrest⟩ := compat_cons.mp h
      simp only [applyRec, List.zipWith_cons_cons]
      cases k with
      | zero =>
        simp only [List.getD_cons_zero]
        unfold setSlot
        by_cases hin : 0 ≤ jwrap n step ∧ jwrap n step < (n : ℤ)
        · rw [if_pos hin]
          funext i
          simp only
          rw [if_neg hu]
        · rw [if_neg hin]
      | succ k =>
        simp only [List.getD_cons_succ]
        have hb := ih ls hrest k u hu
        simpa [applyRec] using hb

/-- C9 (implicit): on an initialized trace with a shape-compatible report,
`record` with an integer step outside `[0, n_steps)` never errors; the
write is dropped (trace unchanged) when the step is out of bounds even
after JAX negative-index wrapping, and in every case the buffers keep
their shapes and only the (existing) wrapped slot can change. -/
theorem arraytrace_record_out_of_range (t : ArrayTrace)
    (tr : List (List String × TraceBuf)) (r : List (List String × LeafArr)) (step : ℤ)
    (htree : t.tree = some tr) (hcompat : compat tr r = true)
    (_hoob : ¬ (0 ≤ step ∧ step < (t.n_steps : ℤ))) :
    record t r step = .ok ⟨t.n_steps, some (applyRec t.n_steps step tr r)⟩ ∧
    (applyRec t.n_steps step tr r).map (fun pb => (pb.1, pb.2.leafShape))
      = tr.map (fun pb => (pb.1, pb.2.leafShape)) ∧
    (∀ k u : ℕ, (u : ℤ) ≠ jwrap t.n_steps step →
      ((applyRec t.n_steps step tr r).getD k dfltBuf).2.slots u
        = (tr.getD k dfltBuf).2.slots u) ∧
    (((t.n_steps : ℤ) ≤ step ∨ step + (t.n_steps : ℤ) < 0) → record t r step = .ok t) := by
  have hok : record t r step = .ok ⟨t.n_steps, some (applyRec t.n_steps step tr r)⟩ := by
    unfold record
    rw [htree]
    simp only
    rw [recordLeaves_ok_of_compat _ _ _ _ hcompat]
  refine ⟨hok, applyRec_shapes _ _ _ _ hcompat,
    fun k u hu => applyRec_slots_untouched _ _ _ _ hcompat k u hu, fun hdrop => ?_⟩
  rw [hok, applyRec_oob _ _ hdrop,
    zipWith_keep_left _ _ (compat_length _ _ hcompat)]
  obtain ⟨n0, tree0⟩ := t
  simp only at htree ⊢
  rw [htree]


/-! Supporting `getD`-level lemmas for insertion and erasure. -/

theorem getD_insertIdx_lt :
    ∀ (l : List ℝ) (n k : ℕ), k < n → (l.insertIdx n 0).getD k 0 = l.getD k 0 := by
  intro l
  induction l with
  | nil =>
    intro n k hk
    cases n with
    | zero => omega
    | succ n => rw [List.insertIdx_succ_nil]
  | cons a t ih =>
    intro n k hk
    cases n with
    | zero => omega
    | succ n =>
      rw [List.insertIdx_succ_cons]
      cases k with
      | zero => rfl
      | succ k =>
        rw [List.getD_cons_succ, List.getD_cons_succ]
        exact ih n k (by omega)

theorem getD_insertIdx_self :
    ∀ (l : List ℝ) (n : ℕ), (l.insertIdx n 0).getD n 0 = 0 := by
  intro l
  induction l with
  | nil =>
    intro n
    cases n with
    | zero => rfl
    | succ n => rw [List.insertIdx_succ_nil]; rfl
  | cons a t ih =>
    intro n
    cases n with
    | zero => rfl
    | succ n =>
      rw [List.insertIdx_succ_cons, List.getD_cons_succ]
      exact ih n

theorem getD_insertIdx_succ_ge :
    ∀ (l : List ℝ) (n k : ℕ), n ≤ k → n ≤ l.length →
      (l.insertIdx n 0).getD (k + 1) 0 = l.getD k 0 := by
  intro l
  induction l with
  | nil =>
    intro n k hnk hn
    have hn0 : n = 0 := by simpa using hn
    subst hn0
    rfl
  | cons a t ih =>
    intro n k hnk hn
    cases n with
    | zero => rfl
    | succ n =>
      rw [List.insertIdx_succ_cons]
      cases k with
      | zero => omega
      | succ k =>
        rw [List.getD_cons_succ, List.getD_cons_succ]
        exact ih n k (by omega) (by simpa using hn)

theorem getD_eraseIdx_lt :
    ∀ (l : List ℝ) (m k : ℕ), k < m → (l.eraseIdx m).getD k 0 = l.getD k 0 := by
  intro l
  induction l with
  | nil => intro m k _; rfl
  | cons a t ih =>
    intro m k hk
    cases m with
    | zero => omega
    | succ m =>
      rw [List.eraseIdx_cons_succ]
      cases k with
      | zero => rfl
      | succ k =>
        rw [List.getD_cons_succ, List.getD_cons_succ]
        exact ih m k (by omega)

theorem getD_eraseIdx_ge :
    ∀ (l : List ℝ) (m k : ℕ), m < l.length → m ≤ k →
      (l.eraseIdx m).getD k 0 = l.getD (k + 1) 0 := by
  intro l
  induction l with
  | nil => intro m k hm _; simp at hm
  | cons a t ih =>
    intro m k hm hk
    cases m with
    | zero => rw [List.eraseIdx_cons_zero, List.getD_cons_succ]
    | succ m =>
      rw [List.eraseIdx_cons_succ]
      cases k with
      | zero => omega
      | succ k =>
        rw [List.getD_cons_succ, List.getD_cons_succ]
        exact ih m k (by simpa using hm) (by omega)

/-- Reading every index of a list back gives the list. -/
theorem map_getD_range (r : List ℝ) :
    (List.range r.length).map (fun i => r.getD i 0) = r := by
  apply List.ext_getElem
  · simp
  · intro k h1 h2
    simp only [List.getElem_map, List.getElem_range]
    rw [List.getD_eq_getElem _ _ h2]

theorem range_split (D m : ℕ) (hm : m ≤ D) :
    List.range D = List.range m ++ (List.range (D - m)).map (fun x => m + x) := by
  have hD : D = m + (D - m) := by omega
  nth_rewrite 1 [hD]
  exact List.range_add m (D - m)

theorem filter_map_all (p : ℕ → Bool) (f : ℕ → ℕ) (k : ℕ)
    (hp : ∀ x, x < k → p (f x) = true) :
    ((List.range k).map f).filter p = (List.range k).map f := by
  apply List.filter_eq_self.mpr
  intro a ha
  obtain ⟨x, hx, rfl⟩ := List.mem_map.mp ha
  exact hp x (List.mem_range.mp hx)

theorem filter_shift_drop_head (s : List ℕ) (m k : ℕ) (hs : ∀ x ∈ s, x < m) :
    ((List.range (k + 1)).map (fun x => m + x)).filter (fun i => ! decide (i ∈ s ++ [m]))
      = (List.range k).map (fun x => m + (x + 1)) := by
  rw [List.range_succ_eq_map, List.map_cons, List.map_map]
  have hcomp : ((fun x => m + x) ∘ Nat.succ) = (fun x => m + (x + 1)) := by
    funext x
    simp only [Function.comp]
  rw [hcomp, List.filter_cons]
  have hmemb : (! decide ((m + 0) ∈ s ++ [m])) = false := by
    simp
  rw [hmemb, if_neg (by simp)]
  apply filter_map_all
  intro x _
  have h1 : ¬ (m + (x + 1)) ∈ s := fun hc => by
    have := hs _ hc
    omega
  have h2 : (m + (x + 1)) ≠ m := by omega
  simp [h1, h2]

/-- Removing coordinate `m` commutes with reduction when every other
dropped index lies below `m`. -/
theorem reduce_frame_append_erase (r : List ℝ) (s : List ℕ) (m : ℕ)
    (hm : m < r.length) (hs : ∀ x ∈ s, x < m) :
    locked_pts.reduce_frame r (s ++ [m]) = locked_pts.reduce_frame (r.eraseIdx m) s := by
  unfold locked_pts.reduce_frame
  have hDr : (r.eraseIdx m).length = r.length - 1 := by
    rw [List.length_eraseIdx]
    simp [hm]
  rw [hDr]
  rw [range_split r.length m (le_of_lt hm), range_split (r.length - 1) m (by omega)]
  rw [List.filter_append, List.filter_append, List.map_append, List.map_append]
  have hk : r.length - m = (r.length - 1 - m) + 1 := by omega
  rw [hk, filter_shift_drop_head s m _ hs]
  rw [filter_map_all (fun i => ! decide (i ∈ s)) (fun x => m + x) (r.length - 1 - m)
    (by
      intro x _
      have h1 : ¬ (m + x) ∈ s := fun hc => by
        have := hs _ hc
        omega
      simp [h1])]
  -- low chunk: same filtered indices, same values
  have hfilt_low :
      (List.range m).filter (fun i => ! decide (i ∈ s ++ [m]))
        = (List.range m).filter (fun i => ! decide (i ∈ s)) := by
    apply List.filter_congr
    intro i hi
    have him : i < m := List.mem_range.mp hi
    have hiff : (i ∈ s ++ [m]) ↔ (i ∈ s) := by
      rw [List.mem_append]
      constructor
      · intro h
        rcases h with h | h
        · exact h
        · exact absurd (List.mem_singleton.mp h) (by omega)
      · exact Or.inl
    simp [hiff]
  rw [hfilt_low]
  congr 1
  · apply List.map_congr_left
    intro i hi
    have him : i < m := List.mem_range.mp (List.mem_of_mem_filter hi)
    rw [getD_eraseIdx_lt _ _ _ him]
  · rw [List.map_map, List.map_map]
    apply List.map_congr_left
    intro x hx
    have hxlt : x < r.length - 1 - m := List.mem_range.mp hx
    simp only [Function.comp]
    rw [getD_eraseIdx_ge _ _ _ hm (by omega)]
    simp only [Nat.add_assoc]

theorem maskFrame_length (r : List ℝ) (s : List ℕ) :
    (locked_pts.maskFrame r s).length = r.length := by
  unfold locked_pts.maskFrame
  simp

theorem maskFrame_getD (r : List ℝ) (s : List ℕ) (k : ℕ) (h : k < r.length) :
    (locked_pts.maskFrame r s).getD k 0 = if k ∈ s then 0 else r.getD k 0 := by
  unfold locked_pts.maskFrame
  rw [List.getD_eq_getElem _ _ (by simpa using h)]
  simp

/-- Inserting the zero for the largest dropped index converts the masked
erased frame into the masked full frame. -/
theorem maskFrame_insert (r : List ℝ) (s : List ℕ) (m : ℕ)
    (hm : m < r.length) (hs : ∀ x ∈ s, x < m) :
    (locked_pts.maskFrame (r.eraseIdx m) s).insertIdx m 0
      = locked_pts.maskFrame r (s ++ [m]) := by
  have hDr : (r.eraseIdx m).length = r.length - 1 := by
    rw [List.length_eraseIdx]
    simp [hm]
  have hlen1 : (locked_pts.maskFrame (r.eraseIdx m) s).length = r.length - 1 := by
    rw [maskFrame_length, hDr]
  have hmle : m ≤ (locked_pts.maskFrame (r.eraseIdx m) s).length := by omega
  apply List.ext_getElem
  · rw [List.length_insertIdx _ _ hmle, hlen1, maskFrame_length]
    omega
  · intro k hk1 hk2
    rw [← List.getD_eq_getElem _ 0 hk1, ← List.getD_eq_getElem _ 0 hk2]
    have hkr : k < r.length := by
      rw [maskFrame_length] at hk2
      exact hk2
    rcases Nat.lt_trichotomy k m with hkm | hkm | hkm
    · rw [getD_insertIdx_lt _ _ _ hkm]
      have hkerase : k < (r.eraseIdx m).length := by omega
      rw [maskFrame_getD _ _ _ hkerase, maskFrame_getD _ _ _ hkr]
      have hks : (k ∈ s ++ [m]) ↔ (k ∈ s) := by
        simp only [List.mem_append, List.mem_singleton]
        constructor
        · rintro (h | h)
          · exact h
          · exact absurd h (by omega)
        · exact Or.inl
      rw [if_congr hks rfl rfl]
      by_cases hmem : k ∈ s
      · rw [if_pos hmem, if_pos hmem]
      · rw [if_neg hmem, if_neg hmem]
        exact getD_eraseIdx_lt _ _ _ hkm
    · subst hkm
      rw [getD_insertIdx_self]
      have : k ∈ s ++ [k] := by simp
      rw [maskFrame_getD _ _ _ hkr, if_pos this]
    · obtain ⟨k', rfl⟩ : ∃ k', k = k' + 1 := ⟨k - 1, by omega⟩
      rw [getD_insertIdx_succ_ge _ _ _ (by omega) hmle]
      have hk'r : k' < (r.eraseIdx m).length := by omega
      rw [maskFrame_getD _ _ _ hk'r, maskFrame_getD _ _ _ hkr]
      have h1 : ¬ k' ∈ s := fun hc => by
        have := hs _ hc
        omega
      have h2 : ¬ (k' + 1) ∈ s ++ [m] := by
        simp only [List.mem_append, List.mem_singleton]
        push_neg
        refine ⟨fun hc => ?_, by omega⟩
        have := hs _ hc
        omega
      rw [if_neg h1, if_neg h2, getD_eraseIdx_ge _ _ _ hm (by omega)]

/-- Round trip for a sorted, in-bounds list of dropped indices. -/
theorem roundtrip_sorted (s : List ℕ) :
    List.Pairwise (· < ·) s → ∀ (r : List ℝ), (∀ ix ∈ s, ix < r.length) →
      s.foldl (fun a ix => a.insertIdx ix 0) (locked_pts.reduce_frame r s)
        = locked_pts.maskFrame r s := by
  induction s using List.reverseRecOn with
  | nil =>
    intro _ r _
    simp only [List.foldl_nil]
    unfold locked_pts.reduce_frame locked_pts.maskFrame
    have hfilt : (List.range r.length).filter (fun i => ! decide (i ∈ ([] : List ℕ)))
        = List.range r.length :=
      List.filter_eq_self.mpr (by simp)
    rw [hfilt]
    apply List.map_congr_left
    intro i _
    simp
  | append_singleton s m ih =>
    intro hpair r hbound
    rw [List.pairwise_append] at hpair
    obtain ⟨hpair_s, _, hcross⟩ := hpair
    have hs : ∀ x ∈ s, x < m := fun x hx => hcross x hx m (by simp)
    have hm : m < r.length := hbound m (by simp)
    rw [List.foldl_append, List.foldl_cons, List.foldl_nil]
    rw [reduce_frame_append_erase r s m hm hs]
    rw [ih hpair_s (r.eraseIdx m) (by
      intro ix hix
      have h1 := hs ix hix
      have h2 : (r.eraseIdx m).length = r.length - 1 := by
        rw [List.length_eraseIdx]
        simp [hm]
      omega)]
    exact maskFrame_insert r s m hm hs

/-- Round trip for one frame with arbitrary (unsorted, distinct) dropped
indices: inflation sorts them first. -/
theorem inflate_reduce_frame (r : List ℝ) (ixs : List ℕ) (hnodup : ixs.Nodup)
    (hbound : ∀ ix ∈ ixs, ix < r.length) :
    locked_pts.inflate_frame (locked_pts.reduce_frame r ixs) ixs
      = locked_pts.maskFrame r ixs := by
  have hperm : List.Perm (ixs.mergeSort) ixs := List.mergeSort_perm ixs _
  have hmem : ∀ i : ℕ, (i ∈ ixs.mergeSort) ↔ (i ∈ ixs) := fun i => hperm.mem_iff
  have hsorted : List.Pairwise (· < ·) (ixs.mergeSort) := by
    have h1 : List.Sorted (· ≤ ·) (ixs.mergeSort) := List.sorted_mergeSort' ixs
    have h2 : (ixs.mergeSort).Nodup := hperm.nodup_iff.mpr hnodup
    exact h1.lt_of_le h2
  have hred : locked_pts.reduce_frame r ixs = locked_pts.reduce_frame r (ixs.mergeSort) := by
    unfold locked_pts.reduce_frame
    have : (List.range r.length).filter (fun i => ! decide (i ∈ ixs))
        = (List.range r.length).filter (fun i => ! decide (i ∈ ixs.mergeSort)) := by
      apply List.filter_congr
      intro i _
      simp [hmem i]
    rw [this]
  have hmask : locked_pts.maskFrame r (ixs.mergeSort) = locked_pts.maskFrame r ixs := by
    unfold locked_pts.maskFrame
    apply List.map_congr_left
    intro i _
    rw [if_congr (hmem i) rfl rfl]
  unfold locked_pts.inflate_frame
  rw [hred]
  rw [roundtrip_sorted _ hsorted r (by
    intro ix hix
    exact hbound ix ((hmem ix).mp hix))]
  exact hmask

theorem filter_range_singleton (p : ℕ → Bool) :
    ∀ (D j0 : ℕ), j0 < D → (∀ j, j < D → (p j = true ↔ j = j0)) →
      (List.range D).filter p = [j0] := by
  intro D
  induction D with
  | zero => intro j0 hj _; omega
  | succ D ih =>
    intro j0 hj hp
    rw [List.range_succ, List.filter_append]
    by_cases hcase : j0 = D
    · subst hcase
      have h1 : (List.range j0).filter p = [] := by
        apply List.filter_eq_nil_iff.mpr
        intro a ha
        have haj : a < j0 := List.mem_range.mp ha
        intro hpa
        have := (hp a (by omega)).mp hpa
        omega
      have h2 : [j0].filter p = [j0] := by
        rw [List.filter_cons]
        rw [if_pos ((hp j0 (by omega)).mpr rfl)]
        rfl
      rw [h1, h2]
      rfl
    · have hj0D : j0 < D := by omega
      have h1 := ih j0 hj0D (fun j hjD => hp j (by omega))
      have h2 : [D].filter p = [] := by
        rw [List.filter_cons]
        rw [if_neg (by
          intro hpD
          exact hcase ((hp D (by omega)).mp hpD).symm)]
        rfl
      rw [h1, h2, List.append_nil]


theorem triangle_le {a b : ℕ} (h : a ≤ b) : triangle a ≤ triangle b := by
  induction b with
  | zero =>
    have : a = 0 := by omega
    subst this
    exact le_refl _
  | succ b ih =>
    rcases Nat.lt_succ_iff_lt_or_eq.mp (Nat.lt_succ_of_le h) with h' | h'
    · calc triangle a ≤ triangle b := ih (by omega)
        _ ≤ triangle (b + 1) := by rw [triangle]; omega
    · subst h'
      exact le_refl _

theorem length_trilPairs (n : ℕ) : (trilPairs n).length = triangle n := by
  induction n with
  | zero => rfl
  | succ n ih =>
    rw [trilPairs, triangle, List.length_append, List.length_map, List.length_range, ih]

theorem triangle_mul (n : ℕ) : n * (n + 1) = 2 * (n + triangle n) := by
  induction n with
  | zero => rfl
  | succ n ih =>
    rw [triangle]
    calc (n + 1) * (n + 1 + 1) = n * (n + 1) + 2 * (n + 1) := by ring
      _ = 2 * (n + triangle n) + 2 * (n + 1) := by rw [ih]
      _ = 2 * (n + 1 + (triangle n + n)) := by ring

theorem triangle_div (n : ℕ) : n * (n + 1) / 2 = n + triangle n := by
  rw [triangle_mul]
  exact Nat.mul_div_cancel_left _ (by norm_num)

/-- The flat offset of the strict-lower entry `(i, j)` is `triangle i + j`. -/
theorem trilPairs_getD (n : ℕ) : ∀ i j : ℕ, j < i → i < n →
    (trilPairs n).getD (triangle i + j) (0, 0) = (i, j) := by
  induction n with
  | zero => intro i j _ hi; omega
  | succ n ih =>
    intro i j hj hi
    rw [trilPairs]
    rcases Nat.lt_succ_iff_lt_or_eq.mp hi with hin | hin
    · have hbound : triangle i + j < (trilPairs n).length := by
        rw [length_trilPairs]
        calc triangle i + j < triangle i + i := by omega
          _ = triangle (i + 1) := by rw [triangle]
          _ ≤ triangle n := triangle_le (by omega)
      rw [List.getD_append _ _ _ _ hbound]
      exact ih i j hj hin
    · subst hin
      have hlen : (trilPairs i).length = triangle i := length_trilPairs i
      rw [List.getD_append_right _ _ _ _ (by rw [hlen]; omega)]
      rw [hlen]
      have hidx : triangle i + j - triangle i = j := by omega
      rw [hidx]
      rw [List.getD_eq_getElem _ _ (by simpa using hj)]
      simp

/-- Conversely, position `k` of the serialization holds the pair
`(i, j)` with `j < i < n` and `triangle i + j = k`. -/
theorem trilPairs_getD_inv (n : ℕ) : ∀ k : ℕ, k < triangle n →
    ∃ i j : ℕ, j < i ∧ i < n ∧ triangle i + j = k ∧
      (trilPairs n).getD k (0, 0) = (i, j) := by
  induction n with
  | zero => intro k hk; exact absurd hk (by rw [triangle]; omega)
  | succ n ih =>
    intro k hk
    rw [trilPairs]
    rw [triangle] at hk
    by_cases hklo : k < triangle n
    · obtain ⟨i, j, hj, hi, hidx, hval⟩ := ih k hklo
      refine ⟨i, j, hj, by omega, hidx, ?_⟩
      rw [List.getD_append _ _ _ _ (by rw [length_trilPairs]; exact hklo)]
      exact hval
    · have hklo' : triangle n ≤ k := by omega
      refine ⟨n, k - triangle n, by omega, by omega, by omega, ?_⟩
      rw [List.getD_append_right _ _ _ _ (by rw [length_trilPairs]; omega)]
      rw [length_trilPairs]
      rw [List.getD_eq_getElem _ _ (by simp only [List.length_map, List.length_range]; omega)]
      simp

theorem chol_upper {N : ℕ} (A : Matrix (Fin N) (Fin N) ℝ) (i j : Fin N)
    (h : (i : ℕ) < (j : ℕ)) : chol A i j = 0 := by
  rw [chol.eq_def]
  rw [dif_neg (by omega), dif_neg (by omega)]

theorem chol_diag_eq {N : ℕ} (A : Matrix (Fin N) (Fin N) ℝ) (j : Fin N) :
    chol A j j
      = Real.sqrt (A j j - ∑ k : Fin N, if (k : ℕ) < (j : ℕ) then (chol A j k) ^ 2 else 0) := by
  rw [chol.eq_def]
  rw [dif_neg (by omega), dif_pos rfl]
  simp only [dite_eq_ite]

theorem chol_lower_eq {N : ℕ} (A : Matrix (Fin N) (Fin N) ℝ) (i j : Fin N)
    (h : (j : ℕ) < (i : ℕ)) :
    chol A i j
      = (A i j - ∑ k : Fin N, if (k : ℕ) < (j : ℕ) then chol A i k * chol A j k else 0)
        / chol A j j := by
  rw [chol.eq_def]
  rw [dif_pos h]
  simp only [dite_eq_ite]

theorem tril_tail_sum {N : ℕ} (L : Matrix (Fin N) (Fin N) ℝ)
    (htri : ∀ i j : Fin N, (i : ℕ) < (j : ℕ) → L i j = 0) (a b : Fin N)
    (_hba : (b : ℕ) ≤ (a : ℕ)) :
    (∑ k : Fin N, L a k * L b k)
        - (∑ k : Fin N, if (k : ℕ) < (b : ℕ) then L a k * L b k else 0)
      = L a b * L b b := by
  rw [← Finset.sum_sub_distrib]
  have hterm : ∀ k : Fin N,
      L a k * L b k - (if (k : ℕ) < (b : ℕ) then L a k * L b k else 0)
        = if (k : ℕ) < (b : ℕ) then 0 else L a k * L b k := by
    intro k
    by_cases hk : (k : ℕ) < (b : ℕ) <;> simp [hk]
  rw [Finset.sum_congr rfl (fun k _ => hterm k)]
  rw [Finset.sum_eq_single b]
  · rw [if_neg (by omega)]
  · intro c _ hcb
    by_cases hc : (c : ℕ) < (b : ℕ)
    · rw [if_pos hc]
    · rw [if_neg hc]
      have hbc : (b : ℕ) < (c : ℕ) := by
        have hne : (c : ℕ) ≠ (b : ℕ) := fun hcontra => hcb (Fin.ext hcontra)
        omega
      rw [htri b c hbc, mul_zero]
  · intro hb
    exact absurd (Finset.mem_univ b) hb

/-- Uniqueness of the Cholesky factorization: the Cholesky–Crout recursion
recovers any lower-triangular factor with positive diagonal. -/
theorem chol_unique {N : ℕ} (L : Matrix (Fin N) (Fin N) ℝ)
    (htri : ∀ i j : Fin N, (i : ℕ) < (j : ℕ) → L i j = 0)
    (hdiag : ∀ i, 0 < L i i) :
    chol (L * L.transpose) = L := by
  have hAentry : ∀ a b : Fin N, (L * L.transpose) a b = ∑ k : Fin N, L a k * L b k := by
    intro a b
    rw [Matrix.mul_apply]
    apply Finset.sum_congr rfl
    intro k _
    rw [Matrix.transpose_apply]
  have main : ∀ jv : ℕ, ∀ j i : Fin N, (j : ℕ) = jv →
      chol (L * L.transpose) i j = L i j := by
    intro jv
    induction jv using Nat.strong_induction_on with
    | _ jv ih =>
      intro j i hj
      have hjj : chol (L * L.transpose) j j = L j j := by
        rw [chol_diag_eq]
        have hsum : (∑ k : Fin N,
              if (k : ℕ) < (j : ℕ) then (chol (L * L.transpose) j k) ^ 2 else 0)
            = ∑ k : Fin N, if (k : ℕ) < (j : ℕ) then L j k * L j k else 0 := by
          apply Finset.sum_congr rfl
          intro k _
          by_cases hk : (k : ℕ) < (j : ℕ)
          · rw [if_pos hk, if_pos hk, ih (k : ℕ) (by omega) k j rfl]
            ring
          · rw [if_neg hk, if_neg hk]
        rw [hsum, hAentry j j, tril_tail_sum L htri j j (le_refl _)]
        exact Real.sqrt_mul_self (hdiag j).le
      rcases Nat.lt_trichotomy (i : ℕ) (j : ℕ) with hlt | heq | hgt
      · rw [chol_upper _ _ _ hlt, htri i j hlt]
      · have hij : i = j := Fin.ext heq
        rw [hij]
        exact hjj
      · rw [chol_lower_eq _ _ _ hgt]
        have hsum : (∑ k : Fin N,
              if (k : ℕ) < (j : ℕ) then
                chol (L * L.transpose) i k * chol (L * L.transpose) j k else 0)
            = ∑ k : Fin N, if (k : ℕ) < (j : ℕ) then L i k * L j k else 0 := by
          apply Finset.sum_congr rfl
          intro k _
          by_cases hk : (k : ℕ) < (j : ℕ)
          · rw [if_pos hk, if_pos hk, ih (k : ℕ) (by omega) k i rfl,
              ih (k : ℕ) (by omega) k j rfl]
          · rw [if_neg hk, if_neg hk]
        rw [hsum, hAentry i j, tril_tail_sum L htri i j (by omega), hjj]
        exact mul_div_cancel_right₀ _ (hdiag j).ne'
  ext i j
  exact main (j : ℕ) j i rfl

/-- Existence: for a positive-definite matrix the Cholesky–Crout recursion yields a
lower-triangular factor with positive diagonal whose square recovers the matrix.
Obtained from Mathlib's LDL decomposition by absorbing the square roots of the
diagonal and fixing signs, then invoking uniqueness. -/
theorem chol_posDef {N : ℕ} (A : Matrix (Fin N) (Fin N) ℝ) (hA : A.PosDef) :
    (∀ i j : Fin N, (i : ℕ) < (j : ℕ) → chol A i j = 0) ∧ (∀ i, 0 < chol A i i) ∧
      Matrix.of (chol A) * (Matrix.of (chol A)).transpose = A := by
  haveI hwf : WellFoundedLT (Fin N) := inferInstance
  letI : DecidableEq (Fin N) := LinearOrder.decidableEq
  have hd : ∀ i : Fin N, 0 < LDL.diagEntries hA i := by
    intro i
    have hrow : LDL.lowerInv hA i ≠ 0 := by
      rw [LDL.lowerInv]
      exact @gramSchmidt_ne_zero ℝ (Fin N → ℝ) _ (_ : _)
        (Matrix.InnerProductSpace.ofMatrix hA.transpose) (Fin N) _ _ _
        (Pi.basisFun ℝ (Fin N)) i (Pi.basisFun ℝ (Fin N)).linearIndependent
    have hpos := hA.2 (LDL.lowerInv hA i) hrow
    simp only [star_trivial] at hpos
    show 0 < LDL.diagEntries hA i
    simp only [LDL.diagEntries, EuclideanSpace.inner_piLp_equiv_symm, star_trivial]
    exact hpos
  have htri_lowerInv :
      (LDL.lowerInv hA).BlockTriangular (OrderDual.toDual : Fin N → (Fin N)ᵒᵈ) := by
    intro i j hij
    exact LDL.lowerInv_triangular hA (OrderDual.toDual_lt_toDual.mp hij)
  have hlower_eq : LDL.lower hA = (LDL.lowerInv hA)⁻¹ := rfl
  haveI hinvLI : Invertible (LDL.lowerInv hA) := LDL.invertibleLowerInv hA
  have htri_lower :
      (LDL.lower hA).BlockTriangular (OrderDual.toDual : Fin N → (Fin N)ᵒᵈ) := by
    rw [hlower_eq]
    exact Matrix.blockTriangular_inv_of_blockTriangular htri_lowerInv
  haveI hinvdet : Invertible (LDL.lowerInv hA).det := Matrix.detInvertibleOfInvertible _
  have hdetInv : (LDL.lowerInv hA).det ≠ 0 := Invertible.ne_zero _
  have hdetlower : (LDL.lower hA).det ≠ 0 := by
    rw [hlower_eq, Matrix.det_nonsing_inv, Ring.inverse_eq_inv]
    exact inv_ne_zero hdetInv
  set L₁ : Matrix (Fin N) (Fin N) ℝ :=
    LDL.lower hA * Matrix.diagonal (fun i => Real.sqrt (LDL.diagEntries hA i)) with hL₁
  have htriL₁ : L₁.BlockTriangular (OrderDual.toDual : Fin N → (Fin N)ᵒᵈ) :=
    htri_lower.mul (Matrix.blockTriangular_diagonal _)
  have hfact₁ : L₁ * L₁.transpose = A := by
    rw [hL₁, Matrix.transpose_mul, Matrix.diagonal_transpose]
    have hassoc : LDL.lower hA * Matrix.diagonal (fun i => Real.sqrt (LDL.diagEntries hA i)) *
        (Matrix.diagonal (fun i => Real.sqrt (LDL.diagEntries hA i)) * (LDL.lower hA).transpose)
        = LDL.lower hA * (Matrix.diagonal (fun i => Real.sqrt (LDL.diagEntries hA i)) *
          Matrix.diagonal (fun i => Real.sqrt (LDL.diagEntries hA i))) *
          (LDL.lower hA).transpose := by
      simp only [Matrix.mul_assoc]
    rw [hassoc, Matrix.diagonal_mul_diagonal]
    have hsq : (fun i => Real.sqrt (LDL.diagEntries hA i) * Real.sqrt (LDL.diagEntries hA i))
        = LDL.diagEntries hA := by
      funext i
      exact Real.mul_self_sqrt (hd i).le
    rw [hsq]
    have hdiag : Matrix.diagonal (LDL.diagEntries hA) = LDL.diag hA := rfl
    rw [hdiag]
    have htr : (LDL.lower hA).transpose = (LDL.lower hA).conjTranspose :=
      (Matrix.conjTranspose_eq_transpose_of_trivial _).symm
    rw [htr]
    exact LDL.lower_conj_diag hA
  have hdetL₁ : L₁.det ≠ 0 := by
    rw [hL₁, Matrix.det_mul, Matrix.det_diagonal]
    apply mul_ne_zero hdetlower
    apply Finset.prod_ne_zero_iff.mpr
    intro i _
    exact (Real.sqrt_pos.mpr (hd i)).ne'
  have hdiagL₁ : ∀ i, L₁ i i ≠ 0 := by
    have hdet_eq : L₁.det = ∏ i, L₁ i i := Matrix.det_of_lowerTriangular L₁ htriL₁
    rw [hdet_eq] at hdetL₁
    intro i
    exact Finset.prod_ne_zero_iff.mp hdetL₁ i (Finset.mem_univ i)
  set s : Fin N → ℝ := fun i => if L₁ i i < 0 then -1 else 1 with hs
  set L₀ : Matrix (Fin N) (Fin N) ℝ := L₁ * Matrix.diagonal s with hL₀
  have htriL₀ : L₀.BlockTriangular (OrderDual.toDual : Fin N → (Fin N)ᵒᵈ) :=
    htriL₁.mul (Matrix.blockTriangular_diagonal _)
  have hupper₀ : ∀ i j : Fin N, (i : ℕ) < (j : ℕ) → L₀ i j = 0 := by
    intro i j hij
    exact htriL₀ (OrderDual.toDual_lt_toDual.mpr (by exact hij))
  have hdiag₀ : ∀ i, 0 < L₀ i i := by
    intro i
    have hval : L₀ i i = L₁ i i * (if L₁ i i < 0 then (-1 : ℝ) else 1) := by
      rw [hL₀, Matrix.mul_diagonal]
    rw [hval]
    by_cases hneg : L₁ i i < 0
    · rw [if_pos hneg]
      nlinarith
    · rw [if_neg hneg]
      rcases lt_or_eq_of_le (not_lt.mp hneg) with h | h
      · simpa using h
      · exact absurd h.symm (hdiagL₁ i)
  have hfact₀ : L₀ * L₀.transpose = A := by
    rw [hL₀, Matrix.transpose_mul, Matrix.diagonal_transpose]
    have hassoc : L₁ * Matrix.diagonal s * (Matrix.diagonal s * L₁.transpose)
        = L₁ * (Matrix.diagonal s * Matrix.diagonal s) * L₁.transpose := by
      simp only [Matrix.mul_assoc]
    rw [hassoc, Matrix.diagonal_mul_diagonal]
    have hss : (fun i => s i * s i) = fun _ => (1 : ℝ) := by
      funext i
      show (if L₁ i i < 0 then (-1 : ℝ) else 1) * (if L₁ i i < 0 then (-1 : ℝ) else 1) = 1
      by_cases hneg : L₁ i i < 0 <;> simp [hneg]
    rw [hss]
    have h1 : (Matrix.diagonal fun _ : Fin N => (1 : ℝ)) = 1 := Matrix.diagonal_one
    rw [h1, Matrix.mul_one]
    exact hfact₁
  have hchol : Matrix.of (chol A) = L₀ := by
    have huniq := chol_unique L₀ hupper₀ hdiag₀
    rw [hfact₀] at huniq
    exact huniq
  have hentry : ∀ i j : Fin N, chol A i j = L₀ i j :=
    fun i j => congrFun (congrFun hchol i) j
  refine ⟨?_, ?_, ?_⟩
  · intro i j hij
    rw [hentry i j]
    exact hupper₀ i j hij
  · intro i
    rw [hentry i i]
    exact hdiag₀ i
  · rw [hchol]
    exact hfact₀

theorem L_of_apply (v : List ℝ) (n : ℕ) (i j : Fin n) :
    L_of v n i j
      = if (i : ℕ) = (j : ℕ) then Real.exp (v.getD (i : ℕ) 0)
        else if (j : ℕ) < (i : ℕ) then v.getD (n + (triangle (i : ℕ) + (j : ℕ))) 0
        else 0 := rfl

theorem L_of_apply_nat (v : List ℝ) (n : ℕ) (i j : ℕ) (hi : i < n) (hj : j < n) :
    L_of v n ⟨i, hi⟩ ⟨j, hj⟩
      = if i = j then Real.exp (v.getD i 0)
        else if j < i then v.getD (n + (triangle i + j)) 0
        else 0 := rfl

theorem Aget_lt {N : ℕ} (A : Matrix (Fin N) (Fin N) ℝ) (i j : ℕ)
    (hi : i < N) (hj : j < N) : Aget A i j = A ⟨i, hi⟩ ⟨j, hj⟩ := by
  simp only [Aget]
  rw [dif_pos (⟨hi, hj⟩ : i < N ∧ j < N)]

theorem L_of_tri (v : List ℝ) (n : ℕ) :
    ∀ i j : Fin n, (i : ℕ) < (j : ℕ) → L_of v n i j = 0 := by
  intro i j hij
  rw [L_of_apply, if_neg (by omega), if_neg (by omega)]

theorem L_of_diag_pos (v : List ℝ) (n : ℕ) : ∀ i : Fin n, 0 < L_of v n i i := by
  intro i
  rw [L_of_apply, if_pos rfl]
  exact Real.exp_pos _

/-- Extraction inverts expansion on vectors of the correct length. -/
theorem extract_expand_eq (n : ℕ) (v : List ℝ) (hv : v.length = n * (n + 1) / 2) :
    extract_tril_cholesky (expand_tril_cholesky v n) = v := by
  have hch : chol (expand_tril_cholesky v n) = L_of v n := by
    rw [expand_tril_cholesky]
    exact chol_unique (L_of v n) (L_of_tri v n) (L_of_diag_pos v n)
  have hvlen : v.length = n + triangle n := by rw [hv, triangle_div]
  rw [extract_tril_cholesky, hch]
  apply List.ext_getElem
  · simp only [List.length_append, List.length_map, List.length_range, length_trilPairs]
    omega
  · intro k hk1 hk2
    rw [← List.getD_eq_getElem _ 0 hk1, ← List.getD_eq_getElem _ 0 hk2]
    have hk : k < n + triangle n := by
      simp only [List.length_append, List.length_map, List.length_range,
        length_trilPairs] at hk1
      exact hk1
    by_cases hkn : k < n
    · rw [List.getD_append _ _ _ _
        (by simp only [List.length_map, List.length_range]; exact hkn)]
      rw [List.getD_eq_getElem _ _
        (by simp only [List.length_map, List.length_range]; exact hkn)]
      simp only [List.getElem_map, List.getElem_range]
      rw [Aget_lt (L_of v n) k k hkn hkn]
      rw [L_of_apply_nat v n k k hkn hkn, if_pos rfl]
      rw [Real.log_exp]
    · push_neg at hkn
      rw [List.getD_append_right _ _ _ _
        (by simp only [List.length_map, List.length_range]; omega)]
      simp only [List.length_map, List.length_range]
      have hk' : k - n < triangle n := by omega
      obtain ⟨i, j, hji, hin, hidx, hval⟩ := trilPairs_getD_inv n (k - n) hk'
      have hblen : k - n < (trilPairs n).length := by rw [length_trilPairs]; omega
      rw [List.getD_eq_getElem _ _ (by simp only [List.length_map]; exact hblen)]
      simp only [List.getElem_map]
      rw [List.getD_eq_getElem _ _ hblen] at hval
      rw [hval]
      show Aget (L_of v n) i j = v.getD k 0
      rw [Aget_lt (L_of v n) i j hin (by omega)]
      rw [L_of_apply_nat v n i j hin (by omega), if_neg (by omega), if_pos hji]
      have hnk : n + (triangle i + j) = k := by omega
      rw [hnk]

/-- Expansion inverts extraction on positive-definite matrices. -/
theorem expand_extract_eq (n : ℕ) (A : Matrix (Fin n) (Fin n) ℝ) (hA : A.PosDef) :
    expand_tril_cholesky (extract_tril_cholesky A) n = A := by
  obtain ⟨htri, hdiag, hfact⟩ := chol_posDef A hA
  have hL : L_of (extract_tril_cholesky A) n = Matrix.of (chol A) := by
    ext i j
    rcases Nat.lt_trichotomy (i : ℕ) (j : ℕ) with hij | hij | hij
    · rw [L_of_apply, if_neg (by omega), if_neg (by omega)]
      exact (htri i j hij).symm
    · have hij' : i = j := Fin.ext hij
      subst hij'
      rw [L_of_apply, if_pos rfl]
      rw [extract_tril_cholesky]
      rw [List.getD_append _ _ _ _
        (by simp only [List.length_map, List.length_range]; exact i.isLt)]
      rw [List.getD_eq_getElem _ _
        (by simp only [List.length_map, List.length_range]; exact i.isLt)]
      simp only [List.getElem_map, List.getElem_range]
      rw [Aget_lt (chol A) (i : ℕ) (i : ℕ) i.isLt i.isLt]
      simp only [Fin.eta]
      rw [Real.exp_log (hdiag i)]
      rfl
    · rw [L_of_apply, if_neg (by omega), if_pos hij]
      rw [extract_tril_cholesky]
      have hb : triangle (i : ℕ) + (j : ℕ) < triangle n := by
        calc triangle (i : ℕ) + (j : ℕ) < triangle (i : ℕ) + (i : ℕ) := by omega
          _ = triangle ((i : ℕ) + 1) := by rw [triangle]
          _ ≤ triangle n := triangle_le i.isLt
      rw [List.getD_append_right _ _ _ _
        (by simp only [List.length_map, List.length_range]; omega)]
      simp only [List.length_map, List.length_range]
      have hsub : n + (triangle (i : ℕ) + (j : ℕ)) - n = triangle (i : ℕ) + (j : ℕ) := by
        omega
      rw [hsub]
      have hblen : triangle (i : ℕ) + (j : ℕ) < (trilPairs n).length := by
        rw [length_trilPairs]; exact hb
      rw [List.getD_eq_getElem _ _ (by simp only [List.length_map]; exact hblen)]
      simp only [List.getElem_map]
      have hpair := trilPairs_getD n (i : ℕ) (j : ℕ) hij i.isLt
      rw [List.getD_eq_getElem _ _ hblen] at hpair
      rw [hpair]
      show Aget (chol A) (i : ℕ) (j : ℕ) = Matrix.of (chol A) i j
      rw [Aget_lt (chol A) (i : ℕ) (j : ℕ) i.isLt j.isLt]
      simp only [Fin.eta]
      rfl
  rw [expand_tril_cholesky, hL]
  exact hfact

end KPSN

namespace KPSN

/-! ## Claim theorems for C4, C5, C7, C8 -/

/-- C7: for every `x`, `y` and positive-definite `cov`,
`sq_mahalanobis(x, y, cov=cov)` produces the same result as
`sq_mahalanobis(x, y, cov_inv=inverse(cov))`; and calling it with both
`cov` and `cov_inv` absent fails with an invalid-input error. -/
theorem sq_mahalanobis_cov_inv_consistent {m : ℕ} (x y : Fin m → ℝ)
    (cov : Matrix (Fin m) (Fin m) ℝ) (_hcov : cov.PosDef) :
    sq_mahalanobis x y (some cov) none = sq_mahalanobis x y none (some cov⁻¹) ∧
    sq_mahalanobis x y (none : Option (Matrix (Fin m) (Fin m) ℝ)) none =
      Except.error "One of `cov` or `cov_inv` required." :=
  ⟨by rfl, by rfl⟩

/-- Witness for C7 at `m = 2`, `cov = 1`. -/
theorem sq_mahalanobis_cov_inv_consistent_witness :
    (1 : Matrix (Fin 2) (Fin 2) ℝ).PosDef ∧
    (sq_mahalanobis ![1, 0] ![0, 1] (some 1) none =
        sq_mahalanobis ![1, 0] ![0, 1] none (some 1⁻¹) ∧
      sq_mahalanobis ![(1 : ℝ), 0] ![0, 1] none none =
        Except.error "One of `cov` or `cov_inv` required.") :=
  ⟨Matrix.PosDef.one,
    sq_mahalanobis_cov_inv_consistent ![1, 0] ![0, 1] 1 Matrix.PosDef.one⟩

/-- C4 (code bug): for a `2×2` scale (`k = 2`), `_single_variance` attempts
to broadcast `diag[rows]` of shape `(2, 3)` with `diag[cols]` of shape
`(3, 2)` — the hard-coded `repeat(3, ...)` in the source — and fails,
instead of returning the `2×2` entrywise-variance matrix the claim (and the
function's own docstring) describe. -/
theorem inverse_wishart_variance_fails_at_k2 :
    single_variance 10 ⟨2, 2, fun i j => if i = j then 1 else 0⟩ = none := by
  rfl

/-- C5 (code bug): with `max_pts` set (here the small value `10`; the
config default is `10000`) and a calibration dataset of only `5` rows,
`pcs._calibrate` still subsamples unconditionally and
`jax.random.choice(..., replace=False)` raises, instead of using all rows
unchanged and succeeding as the claim states. -/
theorem pcs_calibrate_small_dataset_fails :
    pcs_calibrate_rows 5 (some 10) =
      Except.error "Cannot take a larger sample than population when replace=False" := by
  rfl

/-- C8 (code bug): for a style name that is neither built-in nor a
style-sheet file, `set_style` does fall back to the hard-coded `"default"`
style and logs a warning — but the warning is the constant string
`warn_msg` (the source lacks the `f` on the f-string), which contains the
literal placeholder text rather than the requested style name
`"missing_style"`. -/
theorem set_style_fallback_warning_is_literal :
    set_style ⟨["default"], [], [("default", 0)]⟩ "missing_style" =
      Except.ok ⟨"default", 0, [warn_msg]⟩ ∧
    warn_msg = "[init_nb] No matplotlib style `{style}` found, resorting to `default`." := by
  exact ⟨rfl, rfl⟩

/-- C10: for every style name absent from the color-set registry (with the
`"default"` palette registered, as in the repository), `set_style` falls
back to the default style with a warning, and `init_nb` then raises a
`KeyError` because it indexes `color_sets` by the originally requested
name. -/
theorem init_nb_keyerror_unregistered_style (env : StyleEnv) (style : String) (d : ℕ)
    (hmiss : env.color_sets.lookup style = none)
    (hdef : env.color_sets.lookup "default" = some d) :
    init_nb env style = Except.error ("KeyError: " ++ style) ∧
    set_style env style = Except.ok ⟨"default", d, [warn_msg]⟩ := by
  have h1 : (if env.builtin.contains style then env.color_sets.lookup style else none)
      = none := by
    by_cases hb : env.builtin.contains style <;> simp [hb, hmiss]
  have h2 : (if env.sheets.contains style then env.color_sets.lookup style else none)
      = none := by
    by_cases hb : env.sheets.contains style <;> simp [hb, hmiss]
  have hset : set_style env style = Except.ok ⟨"default", d, [warn_msg]⟩ := by
    unfold set_style
    rw [h1, h2, hdef]
  refine ⟨?_, hset⟩
  unfold init_nb
  rw [hset, hmiss]


/-- Witness for C6 at the concrete trace and reports above. -/
theorem arraytrace_record_overwrite_and_shape_error_witness :
    record c6_t1 c6_r2 0 = record c6_t0 c6_r2 0 ∧
    (∃ p s e, record c6_t0 c6_bad 0 = .error (.shapeMismatch p s e) ∧ s ≠ e ∧
      (c6_bad.map (fun ql => (ql.1, ql.2.shape))).lookup p = some s ∧
      (c6_tr.map (fun pb => (pb.1, pb.2.leafShape))).lookup p = some e) :=
  ⟨arraytrace_record_overwrite_and_shape_error.1 c6_t0 c6_tr c6_r1 c6_r2 0 c6_t1
      rfl (by decide) (by decide) rfl,
    arraytrace_record_overwrite_and_shape_error.2 c6_t0 c6_tr c6_bad 0
      rfl rfl (by decide) rfl⟩


/-- Witness for C9 at the concrete trace above with step `5 ∉ [0, 3)`. -/
theorem arraytrace_record_out_of_range_witness :
    record c9_t0 c9_r 5 = .ok ⟨c9_t0.n_steps, some (applyRec c9_t0.n_steps 5 c9_tr c9_r)⟩ ∧
    (applyRec c9_t0.n_steps 5 c9_tr c9_r).map (fun pb => (pb.1, pb.2.leafShape))
      = c9_tr.map (fun pb => (pb.1, pb.2.leafShape)) ∧
    (∀ k u : ℕ, (u : ℤ) ≠ jwrap c9_t0.n_steps 5 →
      ((applyRec c9_t0.n_steps 5 c9_tr c9_r).getD k dfltBuf).2.slots u
        = (c9_tr.getD k dfltBuf).2.slots u) ∧
    (((c9_t0.n_steps : ℤ) ≤ 5 ∨ 5 + (c9_t0.n_steps : ℤ) < 0) → record c9_t0 c9_r 5 = .ok c9_t0) :=
  arraytrace_record_out_of_range c9_t0 c9_tr c9_r 5 rfl (by decide) (by decide)

theorem lookup_map_keyed {α β γ : Type} [BEq α] [LawfulBEq α] (g : β → γ) :
    ∀ (l : List (α × β)) (k : α) (v : β), (l.map Prod.fst).Nodup → (k, v) ∈ l →
      (l.map (fun pv => (pv.1, g pv.2))).lookup k = some (g v) := by
  intro l
  induction l with
  | nil => intro k v _ hmem; exact absurd hmem (List.not_mem_nil _)
  | cons ab t ih =>
    intro k v hnodup hmem
    obtain ⟨a, b⟩ := ab
    simp only [List.map_cons, List.nodup_cons] at hnodup
    obtain ⟨hanot, hnodup'⟩ := hnodup
    rcases List.mem_cons.mp hmem with heq | hmem'
    · cases heq
      simp only [List.map_cons]
      rw [List.lookup, beq_self_eq_true]
    · have hkmem : k ∈ t.map Prod.fst :=
        List.mem_map.mpr ⟨(k, v), hmem', rfl⟩
      have hka : (k == a) = false :=
        beq_eq_false_iff_ne.mpr (fun hcontra => hanot (hcontra ▸ hkmem))
      simp only [List.map_cons]
      rw [List.lookup, hka]
      exact ih k v hnodup' hmem'

/-- C3: for a nonempty parameter grid whose value lists all have length
`n` (with distinct parameter names, as Python dict keys are), and a base
model config whose fit type after `model_overrides` is `"standard"`,
`setup_scan_config` succeeds and its manifest has exactly `n` models named
by the default template, model `i` assigning every declared parameter its
`i`-th value; and whenever the fit type after `model_overrides` is present
but not `"standard"`, it fails with the invalid-input `ValueError`. -/
theorem setup_scan_config_spec :
    (∀ (base : List (String × Val)) (name : String)
        (sp : List (String × List Val)) (sco mo sd : List (String × Val)) (n : ℕ),
      sp ≠ [] → (∀ pv ∈ sp, pv.2.length = n) → (sp.map Prod.fst).Nodup →
      (recursive_update_flat base mo).lookup "fit.type" = some (Val.vs "standard") →
      setup_scan_config base name sp sco mo sd =
          .ok (scan_models name sp, derived_split_config base sco mo sd) ∧
        (scan_models name sp).length = n ∧
        (scan_models name sp).map Prod.fst = (List.range n).map (model_name_default name) ∧
        (∀ i, i < n → ∀ pv ∈ sp, ∀ (hv : i < pv.2.length),
          ((scan_models name sp).getD i ("", [])).2.lookup pv.1
            = some (pv.2.get ⟨i, hv⟩))) ∧
    (∀ (base : List (String × Val)) (name : String)
        (sp : List (String × List Val)) (sco mo sd : List (String × Val)) (v : Val),
      sp ≠ [] →
      (recursive_update_flat base mo).lookup "fit.type" = some v →
      v ≠ Val.vs "standard" →
      setup_scan_config base name sp sco mo sd =
        .error "Scan only supports standard fit type for base model.") := by
  constructor
  · intro base name sp sco mo sd n hne hlen hnodup hfit
    cases sp with
    | nil => exact absurd rfl hne
    | cons pv0 rest =>
      obtain ⟨p0, vals0⟩ := pv0
      have hn0 : vals0.length = n := hlen (p0, vals0) (List.mem_cons_self _ _)
      refine ⟨?_, ?_, ?_, ?_⟩
      · unfold setup_scan_config
        rw [hfit]
        exact if_pos rfl
      · simp [scan_models, hn0]
      · rw [scan_models, List.map_map, hn0]
        rfl
      · intro i hi pv hmem hv
        have hgetd :
            ((scan_models name ((p0, vals0) :: rest)).getD i ("", []))
              = (model_name_default name i,
                ((p0, vals0) :: rest).map (fun pv => (pv.1, pv.2.getD i (Val.vi 0)))) := by
          rw [scan_models, List.getD_eq_getElem _ _ (by simpa [hn0] using hi)]
          simp
        rw [hgetd]
        have hlook := lookup_map_keyed (fun vals => vals.getD i (Val.vi 0))
          ((p0, vals0) :: rest) pv.1 pv.2 hnodup (by simpa using hmem)
        rw [hlook]
        show some (pv.2.getD i (Val.vi 0)) = some (pv.2.get ⟨i, hv⟩)
        rw [List.getD_eq_getElem]
        rfl
  · intro base name sp sco mo sd v hne hfit hv
    cases sp with
    | nil => exact absurd rfl hne
    | cons pv0 rest =>
      obtain ⟨p0, vals0⟩ := pv0
      unfold setup_scan_config
      rw [hfit]
      exact if_neg hv

/-- C2: reducing and re-inflating an array through `locked_pts` leaves
every flattened coordinate not in `reduce_ixs` unchanged and zeroes every
coordinate in `reduce_ixs` (`maskFrame` states exactly that, coordinate by
coordinate); and calibrating on a dataset in which exactly one flattened
axis has standard deviation below `1e-5` marks exactly that axis as
dropped. -/
theorem locked_pts_roundtrip_and_calibration :
    (∀ (x : List (List ℝ)) (ixs : List ℕ),
      ixs.Nodup → (∀ r ∈ x, ∀ ix ∈ ixs, ix < r.length) →
      locked_pts.inflate_array (locked_pts.reduce_array x ixs) ixs
        = x.map (fun r => locked_pts.maskFrame r ixs)) ∧
    (∀ (x : List (List ℝ)) (D j0 : ℕ), j0 < D →
      (∀ j, j < D → (locked_pts.colStd x j < 1e-5 ↔ j = j0)) →
      locked_pts.calibrate x D = [j0]) := by
  constructor
  · intro x ixs hnodup hbound
    unfold locked_pts.inflate_array locked_pts.reduce_array
    rw [List.map_map]
    apply List.map_congr_left
    intro r hr
    simp only [Function.comp]
    exact inflate_reduce_frame r ixs hnodup (hbound r hr)
  · intro x D j0 hj0 hstd
    unfold locked_pts.calibrate
    apply filter_range_singleton _ _ _ hj0
    intro j hj
    rw [decide_eq_true_eq]
    exact hstd j hj

/-- Witness for C2: two frames of two coordinates; coordinate 0 is
constant (standard deviation 0), coordinate 1 is not (standard
deviation 1). -/
theorem locked_pts_roundtrip_and_calibration_witness :
    (locked_pts.inflate_array (locked_pts.reduce_array [[1, 2], [1, 4]] [0]) [0]
        = [[(1 : ℝ), 2], [1, 4]].map (fun r => locked_pts.maskFrame r [0])) ∧
    locked_pts.calibrate [[(1 : ℝ), 2], [1, 4]] 2 = [0] := by
  have h0 : locked_pts.colStd [[(1 : ℝ), 2], [1, 4]] 0 = 0 := by
    simp only [locked_pts.colStd, locked_pts.colMean, List.map_cons, List.map_nil,
      List.getD_cons_zero, List.sum_cons, List.sum_nil, List.length_cons, List.length_nil]
    norm_num
  have h1 : locked_pts.colStd [[(1 : ℝ), 2], [1, 4]] 1 = 1 := by
    simp only [locked_pts.colStd, locked_pts.colMean, List.map_cons, List.map_nil,
      List.getD_cons_succ, List.getD_cons_zero, List.sum_cons, List.sum_nil,
      List.length_cons, List.length_nil]
    norm_num
  refine ⟨locked_pts_roundtrip_and_calibration.1 [[1, 2], [1, 4]] [0]
      (by decide) (by decide),
    locked_pts_roundtrip_and_calibration.2 [[1, 2], [1, 4]] 2 0 (by decide) ?_⟩
  intro j hj
  match j, hj with
  | 0, _ =>
    rw [h0]
    norm_num
  | 1, _ =>
    rw [h1]
    norm_num

/-- Witness for C3 at a 3-value, 2-parameter grid and concrete configs. -/
theorem setup_scan_config_spec_witness :
    (setup_scan_config [("fit.type", Val.vs "standard"), ("fit.n_steps", Val.vi 100)]
          "scan" [("p1", [Val.vi 1, Val.vi 2, Val.vi 3]),
            ("p2", [Val.vs "x", Val.vs "y", Val.vs "z"])] [] [] []
        = .ok (scan_models "scan" [("p1", [Val.vi 1, Val.vi 2, Val.vi 3]),
              ("p2", [Val.vs "x", Val.vs "y", Val.vs "z"])],
            derived_split_config [("fit.type", Val.vs "standard"),
              ("fit.n_steps", Val.vi 100)] [] [] []) ∧
      (scan_models "scan" [("p1", [Val.vi 1, Val.vi 2, Val.vi 3]),
        ("p2", [Val.vs "x", Val.vs "y", Val.vs "z"])]).length = 3 ∧
      (scan_models "scan" [("p1", [Val.vi 1, Val.vi 2, Val.vi 3]),
          ("p2", [Val.vs "x", Val.vs "y", Val.vs "z"])]).map Prod.fst
        = (List.range 3).map (model_name_default "scan") ∧
      (∀ i, i < 3 → ∀ pv ∈ [("p1", [Val.vi 1, Val.vi 2, Val.vi 3]),
          ("p2", [Val.vs "x", Val.vs "y", Val.vs "z"])], ∀ (hv : i < pv.2.length),
        ((scan_models "scan" [("p1", [Val.vi 1, Val.vi 2, Val.vi 3]),
            ("p2", [Val.vs "x", Val.vs "y", Val.vs "z"])]).getD i ("", [])).2.lookup pv.1
          = some (pv.2.get ⟨i, hv⟩))) ∧
    setup_scan_config [("fit.type", Val.vs "split")] "scan"
        [("p1", [Val.vi 1, Val.vi 2, Val.vi 3])] [] [] [] =
      .error "Scan only supports standard fit type for base model." :=
  ⟨setup_scan_config_spec.1 [("fit.type", Val.vs "standard"), ("fit.n_steps", Val.vi 100)]
      "scan" [("p1", [Val.vi 1, Val.vi 2, Val.vi 3]),
        ("p2", [Val.vs "x", Val.vs "y", Val.vs "z"])] [] [] [] 3
      (by decide) (by decide) (by decide) (by decide),
    setup_scan_config_spec.2 [("fit.type", Val.vs "split")] "scan"
      [("p1", [Val.vi 1, Val.vi 2, Val.vi 3])] [] [] [] (Val.vs "split")
      (by decide) (by decide) (by decide)⟩

/-- Witness for C10 at a concrete environment and the style `"nope"`. -/
theorem init_nb_keyerror_unregistered_style_witness :
    ((⟨["default"], [], [("default", 7)]⟩ : StyleEnv).color_sets.lookup "nope" = none) ∧
    (init_nb ⟨["default"], [], [("default", 7)]⟩ "nope" =
        Except.error ("KeyError: " ++ "nope") ∧
      set_style ⟨["default"], [], [("default", 7)]⟩ "nope" =
        Except.ok ⟨"default", 7, [warn_msg]⟩) :=
  ⟨rfl, init_nb_keyerror_unregistered_style ⟨["default"], [], [("default", 7)]⟩ "nope" 7 rfl rfl⟩

/-- C1: the flat-form Cholesky encoding round-trips in both directions (in exact
real arithmetic, which idealizes the floating-point tolerance of the claim):
for every vector `v` of length `n * (n + 1) / 2`,
`extract_tril_cholesky (expand_tril_cholesky v n) = v`, and for every
positive-definite `n × n` matrix `A`,
`expand_tril_cholesky (extract_tril_cholesky A) n = A`. -/
theorem tril_cholesky_roundtrip (n : ℕ) :
    (∀ v : List ℝ, v.length = n * (n + 1) / 2 →
      extract_tril_cholesky (expand_tril_cholesky v n) = v) ∧
    ∀ A : Matrix (Fin n) (Fin n) ℝ, A.PosDef →
      expand_tril_cholesky (extract_tril_cholesky A) n = A :=
  ⟨fun v hv => extract_expand_eq n v hv, fun A hA => expand_extract_eq n A hA⟩

/-- Witness for C1 at `n = 2`, the vector `[0, 0, 1]` and the identity matrix. -/
theorem tril_cholesky_roundtrip_witness :
    extract_tril_cholesky (expand_tril_cholesky [(0 : ℝ), 0, 1] 2) = [(0 : ℝ), 0, 1] ∧
    expand_tril_cholesky (extract_tril_cholesky (1 : Matrix (Fin 2) (Fin 2) ℝ)) 2
      = (1 : Matrix (Fin 2) (Fin 2) ℝ) :=
  ⟨(tril_cholesky_roundtrip 2).1 [(0 : ℝ), 0, 1] (by decide),
    (tril_cholesky_roundtrip 2).2 (1 : Matrix (Fin 2) (Fin 2) ℝ) Matrix.PosDef.one⟩

end KPSN
